import Mathlib

/-!
# chessy: board state, move generation, move application and material score

A shallow embedding of `src/board.cc`.  The square table is a fixed array of 64
records, the bitboard set a fixed array of 12 masks.  Squares (`Square`) are natural numbers,
rank and file offsets (`Offset`) are integers.  The `assert`s of `Update` and `Undo` and their
array accesses are modelled by `Option`: `none` stands for a failed assertion or an
index outside the array.  The `while` loop of `SlidingMoves` runs on fuel and yields
`none` when the fuel is used up before the loop exits.
-/

set_option autoImplicit false

namespace chessy

/-! ## Data model -/

abbrev Square := Nat
abbrev Offset := Int
abbrev BitBoard := Nat

abbrev kRow : Nat := 8
abbrev kSquares : Nat := 64
abbrev kPieceTypes : Nat := 6
abbrev kEmpty : BitBoard := 0

inductive Color where
  | kWhite
  | kBlack
  deriving DecidableEq, Repr

inductive Piece where
  | kPawn
  | kKnight
  | kBishop
  | kRook
  | kQueen
  | kKing
  deriving DecidableEq, Repr

inductive MoveType where
  | kInvalid
  | kRegular
  | kAttack
  deriving DecidableEq, Repr

open Color Piece MoveType

/-- Numeric value of a piece enumerator: `kPawn = 0`, ..., `kKing = 5`, so that the
loop `for (piece = kPawn; piece < kPieceTypes; ++piece)` visits all six. -/
def Piece.toNat : Piece → Nat
  | kPawn => 0
  | kKnight => 1
  | kBishop => 2
  | kRook => 3
  | kQueen => 4
  | kKing => 5

/-- The six piece types in the order of the loop `piece = kPawn .. kPieceTypes - 1`. -/
def allPieces : List Piece := [kPawn, kKnight, kBishop, kRook, kQueen, kKing]

/-- Rank and file offset pair. -/
structure Delta where
  rank : Int
  file : Int
  deriving DecidableEq, Repr

/-- Modelled from the spec: `Delta` addition of `board.h` ("supports addition"),
componentwise. -/
def Delta.add (a b : Delta) : Delta := ⟨a.rank + b.rank, a.file + b.file⟩

/-- Modelled from the spec: `Delta` scalar multiplication of `board.h`
("scalar multiplication (double pawn push ...)"), componentwise. -/
def Delta.scale (a : Delta) (k : Int) : Delta := ⟨a.rank * k, a.file * k⟩

/-- Per-square record of the square table. -/
structure SquareState where
  square : Nat
  empty : Bool
  color : Color
  piece : Piece
  deriving DecidableEq, Repr

/-- Modelled from the spec: the constructor `SquareState(square)` of `board.h`, an
empty square ("squares matched by none are marked empty"); the colour and piece it
leaves in the record are not specified and are fixed here to white and pawn. -/
def SquareState.mkEmpty (square : Nat) : SquareState :=
  ⟨square, true, kWhite, kPawn⟩

/-- Modelled from the spec: the constructor `SquareState(color, piece, square)` of
`board.h`, an occupied square. -/
def SquareState.mkOccupied (color : Color) (piece : Piece) (square : Nat) : SquareState :=
  ⟨square, false, color, piece⟩

/-- A move: type, source, destination and captured piece. -/
structure Move where
  type : MoveType
  source : Nat
  dest : Nat
  captured : Piece
  deriving DecidableEq, Repr

/-- Modelled from the spec: the constructor `Move(type)` of `board.h` with the other
fields defaulted; an invalid move "carries no valid source/destination", the
defaults are fixed here to 0, 0 and pawn. -/
def Move.ofType (type : MoveType) : Move := ⟨type, 0, 0, kPawn⟩

/-- Modelled from the spec: the constructor `Move(type, source, dest)` of `board.h`,
the captured piece defaulted to pawn. -/
def Move.mk3 (type : MoveType) (source dest : Nat) : Move := ⟨type, source, dest, kPawn⟩

/-- The board: 12 bitboards, 64 square records, side to move. -/
structure Board where
  board_ : Fin 12 → BitBoard
  square_table_ : Fin 64 → SquareState
  color_ : Color

/-- Assignment `table[i] = v` on the square table. -/
def setSq (t : Fin 64 → SquareState) (i : Fin 64) (v : SquareState) : Fin 64 → SquareState :=
  fun j => if j = i then v else t j

/-- The square table as the sequence of its 64 records, in index order (the order
of `for (const auto& state : square_table_)`). -/
def tableList (t : Fin 64 → SquareState) : List SquareState :=
  List.ofFn t

/-! ## Direction constants of `board.h` -/

/-- Modelled from the spec: `kU` of `board.h`, one rank up ("white moves toward
increasing rank"). -/
def kU : Delta := ⟨1, 0⟩

/-- Modelled from the spec: `kD` of `board.h`, one rank down. -/
def kD : Delta := ⟨-1, 0⟩

/-- Modelled from the spec: `kR` of `board.h`, one file to the right. -/
def kR : Delta := ⟨0, 1⟩

/-- Modelled from the spec: `kL` of `board.h`, one file to the left. -/
def kL : Delta := ⟨0, -1⟩

/-- Modelled from the spec: `kKnightDeltas` of `board.h`, the "fixed set of eight
L-shaped deltas". -/
def kKnightDeltas : List Delta :=
  [⟨2, 1⟩, ⟨2, -1⟩, ⟨-2, 1⟩, ⟨-2, -1⟩, ⟨1, 2⟩, ⟨1, -2⟩, ⟨-1, 2⟩, ⟨-1, -2⟩]

/-- Modelled from the spec: `kDiagonals` of `board.h`, the "4 diagonals". -/
def kDiagonals : List Delta := [⟨1, 1⟩, ⟨1, -1⟩, ⟨-1, 1⟩, ⟨-1, -1⟩]

/-- Modelled from the spec: `kOrthogonals` of `board.h`, the "4 orthogonals". -/
def kOrthogonals : List Delta := [⟨1, 0⟩, ⟨-1, 0⟩, ⟨0, 1⟩, ⟨0, -1⟩]

/-- Modelled from the spec: `kOmnigonals` of `board.h`, "all eight adjacent deltas". -/
def kOmnigonals : List Delta :=
  [⟨1, 1⟩, ⟨1, -1⟩, ⟨-1, 1⟩, ⟨-1, -1⟩, ⟨1, 0⟩, ⟨-1, 0⟩, ⟨0, 1⟩, ⟨0, -1⟩]

/-- Modelled from the spec: `kInitialBoardPosition` of `board.h`, "the standard chess
starting position" as 12 masks indexed by `PieceIndex`, white on ranks 0 and 1 and
black on ranks 6 and 7 (square = rank * 8 + file, file 0 = a). -/
def kInitialBoardPosition : Fin 12 → BitBoard := fun i =>
  [0x000000000000FF00, 0x0000000000000042, 0x0000000000000024,
   0x0000000000000081, 0x0000000000000008, 0x0000000000000010,
   0x00FF000000000000, 0x4200000000000000, 0x2400000000000000,
   0x8100000000000000, 0x0800000000000000, 0x1000000000000000].getD i.val 0

/-! ## Helpers of `board.cc` -/

def Rank (square : Nat) : Int := ((square / kRow : Nat) : Int)

def File (square : Nat) : Int := ((square % kRow : Nat) : Int)

def Toggle (color : Color) : Color :=
  if color = kWhite then kBlack else kWhite

def PieceIndex (color : Color) (piece : Piece) : Nat :=
  piece.toNat + (if color = kWhite then 0 else kPieceTypes)

/-- Modelled from the spec: `AddMove` of `board.h`, appending a move to the result
vector. -/
def AddMove (res : List Move) (move : Move) : List Move := res ++ [move]

/-! ## Bitboard queries -/

/-- Read access `board_[PieceIndex(color, piece)]` on a bitboard set. -/
def bitBoardOf (board : Fin 12 → BitBoard) (color : Color) (piece : Piece) : BitBoard :=
  board ⟨PieceIndex color piece, by cases color <;> cases piece <;> decide⟩

def GetBitBoard (b : Board) (color : Color) (piece : Piece) : BitBoard :=
  bitBoardOf b.board_ color piece

def PositionMask (b : Board) (color : Color) : BitBoard :=
  allPieces.foldl (fun mask piece => mask ||| GetBitBoard b color piece) kEmpty

def Friends (b : Board) : BitBoard := PositionMask b b.color_

def Enemies (b : Board) : BitBoard := PositionMask b (Toggle b.color_)

/-! ## Construction -/

/-- Inner loop of the constructor for one square: scan the piece types in order,
white before black, and stop at the first bitboard that has the square's bit set. -/
def scanPieces (board : Fin 12 → BitBoard) (square : Nat) :
    List Piece → SquareState → SquareState
  | [], st => st
  | piece :: rest, st =>
    if (bitBoardOf board kWhite piece).testBit square then
      SquareState.mkOccupied kWhite piece square
    else if (bitBoardOf board kBlack piece).testBit square then
      SquareState.mkOccupied kBlack piece square
    else scanPieces board square rest st

/-- The constructor body for an arbitrary bitboard set: the square table is synced
from the bitboards and white is to move. -/
def Board.ofBitBoards (board : Fin 12 → BitBoard) : Board :=
  { board_ := board
    square_table_ := fun i => scanPieces board i.val allPieces (SquareState.mkEmpty i.val)
    color_ := kWhite }

/-- The constructor `Board::Board()`. -/
def Board.init : Board := Board.ofBitBoards kInitialBoardPosition

/-- Position of a (colour, piece) pair in the scan order of the constructor: pawn,
knight, bishop, rook, queen, king, and white before black for each piece type. -/
def scanIndex (color : Color) (piece : Piece) : Nat :=
  2 * piece.toNat + (if color = kWhite then 0 else 1)

/-! ## Move application -/

/-- Member function `Board::Update`. The writes go through the two references `source` and `dest`
one after the other, so that aliasing (source = dest) is as in the code. -/
def Update (b : Board) (move : Move) : Option Board :=
  if move.type = kInvalid then none
  else if h : move.source < 64 ∧ move.dest < 64 then
    let s : Fin 64 := ⟨move.source, h.1⟩
    let d : Fin 64 := ⟨move.dest, h.2⟩
    let t0 := b.square_table_
    if (t0 s).empty then none
    else
      let t1 := setSq t0 s { t0 s with empty := true }
      let t2 := setSq t1 d { t1 d with empty := false }
      let t3 := setSq t2 d { t2 d with piece := (t2 s).piece }
      let t4 := setSq t3 d { t3 d with color := (t3 s).color }
      some { b with square_table_ := t4, color_ := Toggle b.color_ }
  else none

/-- Member function `Board::Undo`. -/
def Undo (b : Board) (move : Move) : Option Board :=
  if move.type = kInvalid then none
  else if h : move.source < 64 ∧ move.dest < 64 then
    let s : Fin 64 := ⟨move.source, h.1⟩
    let d : Fin 64 := ⟨move.dest, h.2⟩
    let t0 := b.square_table_
    if (t0 d).empty then none
    else
      let t1 := setSq t0 s { t0 s with empty := false }
      let t2 := setSq t1 s { t1 s with piece := (t1 d).piece }
      let t5 :=
        if move.type = kAttack then
          let t3 := setSq t2 d { t2 d with empty := false }
          let t4 := setSq t3 d { t3 d with color := b.color_ }
          setSq t4 d { t4 d with piece := move.captured }
        else
          setSq t2 d { t2 d with empty := true }
      let color := Toggle b.color_
      let t6 := setSq t5 s { t5 s with color := color }
      some { b with square_table_ := t6, color_ := color }
  else none

/-! ## Move generation -/

/-- Member function `Board::TryMove`. -/
def TryMove (b : Board) (source : Nat) (delta : Delta) : Move :=
  let rank : Int := Rank source + delta.rank
  let file : Int := File source + delta.file
  if h : (rank < 0 ∨ rank ≥ kRow) ∨ (file < 0 ∨ file ≥ kRow) then
    Move.ofType kInvalid
  else
    let dest : Nat := (rank * kRow + file).toNat
    let loc := b.square_table_ ⟨dest, by
      have h8 : ((kRow : Nat) : Int) = 8 := rfl
      rw [h8] at h
      show Int.toNat (rank * 8 + file) < 64
      clear_value rank file
      omega⟩
    if loc.empty then Move.mk3 kRegular source dest
    else if loc.color = b.color_ then Move.ofType kInvalid
    else ⟨kAttack, source, dest, loc.piece⟩

/-- Member function `Board::PawnMoves`. -/
def PawnMoves (b : Board) (res : List Move) (source : Nat) : List Move :=
  let forward : Delta := if b.color_ = kWhite then kU else kD
  let move := TryMove b source (forward.add kR)
  let res := if move.type = kAttack then AddMove res move else res
  let move := TryMove b source (forward.add kL)
  let res := if move.type = kAttack then AddMove res move else res
  let move := TryMove b source forward
  if move.type = kRegular then
    let res := AddMove res move
    if (b.color_ = kWhite ∧ Rank source = 1) ∨ (b.color_ = kBlack ∧ Rank source = 6) then
      let move := TryMove b source (forward.scale 2)
      if move.type = kRegular then AddMove res move else res
    else res
  else res

/-- The loop `for (delta : deltas) { move = TryMove(source, delta); if valid, add }`
shared by `KnightMoves` and `KingMoves`. -/
def stepMoves (b : Board) (source : Nat) : List Delta → List Move → List Move
  | [], res => res
  | delta :: rest, res =>
    let move := TryMove b source delta
    stepMoves b source rest (if move.type ≠ kInvalid then AddMove res move else res)

/-- Member function `Board::KnightMoves`. -/
def KnightMoves (b : Board) (res : List Move) (source : Nat) : List Move :=
  stepMoves b source kKnightDeltas res

/-- The `while` loop of `Board::SlidingMoves`; one unit of fuel per execution of the
loop body, `none` when the fuel runs out before the loop exits. -/
def slidingLoop (b : Board) (source : Nat) (d : Delta) :
    Nat → Delta → List Move → Option (List Move)
  | 0, _, _ => none
  | fuel + 1, dest, res =>
    let move := TryMove b source dest
    let res := if move.type ≠ kInvalid then AddMove res move else res
    if move.type = kRegular then slidingLoop b source d fuel (dest.add d) res
    else some res

/-- Member function `Board::SlidingMoves`. -/
def SlidingMoves (fuel : Nat) (b : Board) (res : List Move) (source : Nat) (d : Delta) :
    Option (List Move) :=
  slidingLoop b source d fuel d res

/-- The loop `for (delta : deltas) SlidingMoves(res, source, delta)` of `BishopMoves`
and `RookMoves`. -/
def slideAll (fuel : Nat) (b : Board) (source : Nat) :
    List Delta → List Move → Option (List Move)
  | [], res => some res
  | delta :: rest, res =>
    match SlidingMoves fuel b res source delta with
    | none => none
    | some res => slideAll fuel b source rest res

/-- Member function `Board::BishopMoves`. -/
def BishopMoves (fuel : Nat) (b : Board) (res : List Move) (source : Nat) :
    Option (List Move) :=
  slideAll fuel b source kDiagonals res

/-- Member function `Board::RookMoves`. -/
def RookMoves (fuel : Nat) (b : Board) (res : List Move) (source : Nat) :
    Option (List Move) :=
  slideAll fuel b source kOrthogonals res

/-- Member function `Board::QueenMoves`. -/
def QueenMoves (fuel : Nat) (b : Board) (res : List Move) (source : Nat) :
    Option (List Move) :=
  match BishopMoves fuel b res source with
  | none => none
  | some res => RookMoves fuel b res source

/-- Member function `Board::KingMoves`. -/
def KingMoves (b : Board) (res : List Move) (source : Nat) : List Move :=
  stepMoves b source kOmnigonals res

/-- The `switch (state.piece)` of `PossibleMoves`. -/
def pieceMoves (fuel : Nat) (b : Board) (res : List Move) (state : SquareState) :
    Option (List Move) :=
  match state.piece with
  | kPawn => some (PawnMoves b res state.square)
  | kKnight => some (KnightMoves b res state.square)
  | kBishop => BishopMoves fuel b res state.square
  | kRook => RookMoves fuel b res state.square
  | kQueen => QueenMoves fuel b res state.square
  | kKing => some (KingMoves b res state.square)

/-- The loop over the square table of `PossibleMoves`. -/
def possibleLoop (fuel : Nat) (b : Board) : List SquareState → List Move → Option (List Move)
  | [], res => some res
  | state :: rest, res =>
    if state.empty ∨ state.color ≠ b.color_ then possibleLoop fuel b rest res
    else
      match pieceMoves fuel b res state with
      | none => none
      | some res => possibleLoop fuel b rest res

/-- Member function `Board::PossibleMoves`; `fuel` bounds the iterations of every sliding ray. -/
def PossibleMoves (fuel : Nat) (b : Board) : Option (List Move) :=
  possibleLoop fuel b (tableList b.square_table_) []

/-! ## Evaluation -/

/-- The loop of `Board::Score` over the records, carrying `(us, them)`. -/
def scoreLoop (kPieceValue : Piece → Int) (color : Color) :
    List SquareState → Int × Int → Int × Int
  | [], acc => acc
  | state :: rest, acc =>
    if state.empty then scoreLoop kPieceValue color rest acc
    else if color = state.color then
      scoreLoop kPieceValue color rest (acc.1 + kPieceValue state.piece, acc.2)
    else
      scoreLoop kPieceValue color rest (acc.1, acc.2 + kPieceValue state.piece)

/-- Member function `Board::Score`; the table `kPieceValue` of `board.h` is a parameter. -/
def Score (kPieceValue : Piece → Int) (b : Board) : Int :=
  let r := scoreLoop kPieceValue b.color_ (tableList b.square_table_) (0, 0)
  r.1 - r.2

/-- The material of one colour as the spec words it: the sum of the piece values of
the non-empty squares of that colour. -/
def materialOf (kPieceValue : Piece → Int) (color : Color) (l : List SquareState) : Int :=
  (l.map (fun st => if st.empty = false ∧ st.color = color then kPieceValue st.piece else 0)).sum

/-- The square at rank `r` and file `f`: its index and its record when both
coordinates are in 0..7 (the square is on the board), nothing otherwise. -/
def squareAt (b : Board) (r f : Int) : Option (Nat × SquareState) :=
  if h : (0 ≤ r ∧ r < 8) ∧ (0 ≤ f ∧ f < 8) then
    some ((r * 8 + f).toNat, b.square_table_ ⟨(r * 8 + f).toNat, by omega⟩)
  else none

/-- The pawn capture towards rank `r`, file `f` as the spec words it: an attack move
if and only if that square is on the board and holds a piece of the opposite colour. -/
def pawnAttackSpec (b : Board) (s : Nat) (r f : Int) : List Move :=
  match squareAt b r f with
  | some (d, st) =>
    if st.empty = false ∧ st.color = Toggle b.color_ then [⟨kAttack, s, d, st.piece⟩] else []
  | none => []

/-- The pawn pushes as the spec words them: a regular single step if and only if the
square one step forward is on the board and empty, and a regular double step if and
only if in addition the source is on the home rank and the square two steps forward
is empty. -/
def pawnPushSpec (b : Board) (s : Nat) : List Move :=
  let fw : Int := if b.color_ = kWhite then 1 else -1
  let home : Int := if b.color_ = kWhite then 1 else 6
  match squareAt b (Rank s + fw) (File s) with
  | some (d1, st1) =>
    if st1.empty = true then
      Move.mk3 kRegular s d1 ::
        (if Rank s = home then
          match squareAt b (Rank s + 2 * fw) (File s) with
          | some (d2, st2) => if st2.empty = true then [Move.mk3 kRegular s d2] else []
          | none => []
        else [])
    else []
  | none => []

/-- The moves of a pawn on `s` as the spec words them: the capture to the right, the
capture to the left, then the pushes. -/
def PawnMovesSpec (b : Board) (s : Nat) : List Move :=
  let fw : Int := if b.color_ = kWhite then 1 else -1
  pawnAttackSpec b s (Rank s + fw) (File s + 1) ++
    pawnAttackSpec b s (Rank s + fw) (File s - 1) ++ pawnPushSpec b s

/-- Every record of the square table carries its own index as square. -/
abbrev WellIndexed (b : Board) : Prop :=
  ∀ i : Fin 64, (b.square_table_ i).square = i.val

/-- A candidate that `TryMove` accepts from `src` for some non-zero delta. -/
def Generated (b : Board) (src : Nat) (m : Move) : Prop :=
  ∃ delta : Delta, (delta.rank ≠ 0 ∨ delta.file ≠ 0) ∧ TryMove b src delta = m ∧
    m.type ≠ kInvalid

/-- What a generated move looks like on the board: the destination is a square other
than the source, empty for a regular move, and for an attack occupied by the other
colour with the captured piece on it. -/
def DestOK (b : Board) (m : Move) : Prop :=
  ∃ hd : m.dest < 64, m.dest ≠ m.source ∧
    ((m.type = kRegular ∧ (b.square_table_ ⟨m.dest, hd⟩).empty = true) ∨
      (m.type = kAttack ∧ (b.square_table_ ⟨m.dest, hd⟩).empty = false ∧
        (b.square_table_ ⟨m.dest, hd⟩).color = Toggle b.color_ ∧
        m.captured = (b.square_table_ ⟨m.dest, hd⟩).piece))

/-- A direction with both components in {-1, 0, 1} and not both zero. -/
def UnitDir (d : Delta) : Prop :=
  (d.rank = -1 ∨ d.rank = 0 ∨ d.rank = 1) ∧ (d.file = -1 ∨ d.file = 0 ∨ d.file = 1) ∧
    (d.rank ≠ 0 ∨ d.file ≠ 0)

/-- The source of a move is a square occupied by the side to move. -/
def SourceOK (b : Board) (m : Move) : Prop :=
  ∃ hs : m.source < 64, (b.square_table_ ⟨m.source, hs⟩).empty = false ∧
    (b.square_table_ ⟨m.source, hs⟩).color = b.color_

/-- The occupant of square `s`: colour and piece when `s` is a square of the board and
its record is non-empty. -/
def pieceAt (b : Board) (s : Nat) : Option (Color × Piece) :=
  if h : s < 64 then
    if (b.square_table_ ⟨s, h⟩).empty then none
    else some ((b.square_table_ ⟨s, h⟩).color, (b.square_table_ ⟨s, h⟩).piece)
  else none

/-! ## Concrete positions -/

/-- The position reached from the start by the pawn moves e2-e3 (12 to 20) and a7-a6
(48 to 40), white to move; the start position if one of the two updates fails. -/
def playedBoard : Board :=
  match Update Board.init ⟨kRegular, 12, 20, kPawn⟩ with
  | some b1 =>
    match Update b1 ⟨kRegular, 48, 40, kPawn⟩ with
    | some b2 => b2
    | none => Board.init
  | none => Board.init

/-- The bishop move f1-e2 (5 to 12) in `playedBoard`. -/
def bishopMove : Move := ⟨kRegular, 5, 12, kPawn⟩

/-- The index of the square-table access `square_table_[dest]` made by `TryMove`: the
value of `dest` when the boundary check passes, nothing when `TryMove` returns before
reading the table. -/
def TryMoveAccess (source : Nat) (delta : Delta) : Option Nat :=
  let rank : Int := Rank source + delta.rank
  let file : Int := File source + delta.file
  if (rank < 0 ∨ rank ≥ kRow) ∨ (file < 0 ∨ file ≥ kRow) then none
  else some (rank * kRow + file).toNat

/-- The square table mirrors the bitboards at square `s`: `s` is non-empty with colour
`c` and piece `p` if and only if bitboard `(c, p)` has bit `s` set. -/
def MirrorsAt (b : Board) (s : Fin 64) : Prop :=
  ∀ c p, ((b.square_table_ s).empty = false ∧ (b.square_table_ s).color = c ∧
    (b.square_table_ s).piece = p) ↔ (GetBitBoard b c p).testBit s.val = true

/-- The square table exactly mirrors the 12 bitboards (invariant I3). -/
def Mirrors (b : Board) : Prop := ∀ s : Fin 64, MirrorsAt b s

/-- The pawn move e2-e3 (12 to 20) in the start position. -/
def pawnMove : Move := ⟨kRegular, 12, 20, kPawn⟩

/-- The single step towards `delta` as the spec words it: one move if and only if the
target square is on the board and not occupied by the side to move, regular onto an
empty square and attack, with the piece found there, onto the opposite colour. -/
def stepSpec (b : Board) (s : Nat) (delta : Delta) : List Move :=
  match squareAt b (Rank s + delta.rank) (File s + delta.file) with
  | some (t, st) =>
    if st.empty = true then [Move.mk3 kRegular s t]
    else if st.color = Toggle b.color_ then [⟨kAttack, s, t, st.piece⟩]
    else []
  | none => []

/-- The square `k` steps from `s` along `d`: its index and record when on the board. -/
def raySquare (b : Board) (s : Nat) (d : Delta) (k : Nat) : Option (Nat × SquareState) :=
  squareAt b (Rank s + (k : Int) * d.rank) (File s + (k : Int) * d.file)

/-- The index of the square `k` steps from `s` along `d`. -/
def rayIndex (s : Nat) (d : Delta) (k : Nat) : Nat :=
  ((Rank s + (k : Int) * d.rank) * 8 + (File s + (k : Int) * d.file)).toNat

/-- The moves of one ray as the spec words them, for the blocking distance `n`: the
regular moves to the squares 1 .. n-1 steps away in increasing distance, followed by
one attack on the square `n` steps away if it is on the board and holds a piece of the
opposite colour (`pawnAttackSpec` is that capture rule). -/
def raySpec (b : Board) (s : Nat) (d : Delta) (n : Nat) : List Move :=
  (List.range' 1 (n - 1)).map (fun k => Move.mk3 kRegular s (rayIndex s d k)) ++
    pawnAttackSpec b s (Rank s + (n : Int) * d.rank) (File s + (n : Int) * d.file)

/-- A position with a white rook on a1 (square 0) and a black pawn on a3 (square 16),
white to move, built by the constructor body from its bitboards. -/
def rayBoard : Board :=
  Board.ofBitBoards (fun i => [0, 0, 0, 1, 0, 0, 65536, 0, 0, 0, 0, 0].getD i.val 0)

end chessy

namespace chessy

open Color Piece MoveType

/-! ## Basic facts -/

@[simp] theorem setSq_same (t : Fin 64 → SquareState) (i : Fin 64) (v : SquareState) :
    setSq t i v i = v := by
  simp [setSq]

@[simp] theorem setSq_ne (t : Fin 64 → SquareState) (i j : Fin 64) (v : SquareState)
    (h : j ≠ i) : setSq t i v j = t j := by
  simp [setSq, h]

theorem Toggle_Toggle (c : Color) : Toggle (Toggle c) = c := by
  cases c <;> rfl

theorem Toggle_ne (c : Color) : Toggle c ≠ c := by
  cases c <;> decide

theorem ne_iff_eq_Toggle (c d : Color) : c ≠ d ↔ c = Toggle d := by
  cases c <;> cases d <;> decide

/-- Off the board `TryMove` answers `Move(kInvalid)`. -/
theorem TryMove_off (b : Board) (s : Nat) (delta : Delta)
    (h : (Rank s + delta.rank < 0 ∨ Rank s + delta.rank ≥ 8) ∨
      (File s + delta.file < 0 ∨ File s + delta.file ≥ 8)) :
    TryMove b s delta = Move.ofType kInvalid := by
  have h8 : ((kRow : Nat) : Int) = 8 := rfl
  unfold TryMove
  simp only [h8]
  rw [dif_pos h]

/-- On the board `TryMove` classifies the record of the target square. -/
theorem TryMove_on (b : Board) (s : Nat) (delta : Delta) (t : Fin 64)
    (hr : 0 ≤ Rank s + delta.rank ∧ Rank s + delta.rank < 8)
    (hf : 0 ≤ File s + delta.file ∧ File s + delta.file < 8)
    (ht : (t.val : Int) = (Rank s + delta.rank) * 8 + (File s + delta.file)) :
    TryMove b s delta =
      if (b.square_table_ t).empty then Move.mk3 kRegular s t.val
      else if (b.square_table_ t).color = b.color_ then Move.ofType kInvalid
      else ⟨kAttack, s, t.val, (b.square_table_ t).piece⟩ := by
  have hn : ¬ ((Rank s + delta.rank < 0 ∨ Rank s + delta.rank ≥ 8) ∨
      (File s + delta.file < 0 ∨ File s + delta.file ≥ 8)) := by omega
  have hv : ((Rank s + delta.rank) * 8 + (File s + delta.file)).toNat = t.val := by omega
  have ht2 : (⟨((Rank s + delta.rank) * 8 + (File s + delta.file)).toNat, by omega⟩ : Fin 64)
      = t := Fin.ext hv
  have h8 : ((kRow : Nat) : Int) = 8 := rfl
  unfold TryMove
  simp only [h8]
  rw [dif_neg hn]
  simp only [ht2, hv]

/-- The result of `TryMove` in terms of the target square. -/
theorem TryMove_eq_squareAt (b : Board) (s : Nat) (delta : Delta) :
    TryMove b s delta =
      match squareAt b (Rank s + delta.rank) (File s + delta.file) with
      | none => Move.ofType kInvalid
      | some (d, st) =>
        if st.empty = true then Move.mk3 kRegular s d
        else if st.color = b.color_ then Move.ofType kInvalid
        else ⟨kAttack, s, d, st.piece⟩ := by
  by_cases h : (0 ≤ Rank s + delta.rank ∧ Rank s + delta.rank < 8) ∧
      (0 ≤ File s + delta.file ∧ File s + delta.file < 8)
  · have hlt : ((Rank s + delta.rank) * 8 + (File s + delta.file)).toNat < 64 := by omega
    rw [TryMove_on b s delta ⟨_, hlt⟩ h.1 h.2 (by
      show ((((Rank s + delta.rank) * 8 + (File s + delta.file)).toNat : Nat) : Int) = _
      omega)]
    unfold squareAt
    rw [dif_pos h]
  · rw [TryMove_off b s delta (by omega)]
    unfold squareAt
    rw [dif_neg h]

/-! ## TryMove -/

/-- C4: for every board, source square `s` and delta `(dr, df)`: if `s/8 + dr` or
`s%8 + df` lies outside 0..7 then `TryMove` returns type invalid whatever the square
table holds; otherwise every non-invalid result has source `s` and destination
`(s/8 + dr)*8 + (s%8 + df)`, which is below 64.  From square 0 with delta (-1,0) the
result is invalid, from square 0 with delta (0,1) onto an empty square 1 it is regular
with destination 1. -/
theorem TryMove_boundary (b : Board) (s : Nat) (delta : Delta) :
    ((((s / 8 : Nat) : Int) + delta.rank < 0 ∨ 8 ≤ ((s / 8 : Nat) : Int) + delta.rank ∨
        ((s % 8 : Nat) : Int) + delta.file < 0 ∨ 8 ≤ ((s % 8 : Nat) : Int) + delta.file) →
      (TryMove b s delta).type = kInvalid) ∧
    (¬ (((s / 8 : Nat) : Int) + delta.rank < 0 ∨ 8 ≤ ((s / 8 : Nat) : Int) + delta.rank ∨
        ((s % 8 : Nat) : Int) + delta.file < 0 ∨ 8 ≤ ((s % 8 : Nat) : Int) + delta.file) →
      (TryMove b s delta).type ≠ kInvalid →
        (TryMove b s delta).source = s ∧
        (((TryMove b s delta).dest : Nat) : Int) =
          (((s / 8 : Nat) : Int) + delta.rank) * 8 + (((s % 8 : Nat) : Int) + delta.file) ∧
        (TryMove b s delta).dest < 64) ∧
    (TryMove b 0 ⟨-1, 0⟩).type = kInvalid ∧
    ((b.square_table_ 1).empty = true →
      (TryMove b 0 ⟨0, 1⟩).type = kRegular ∧ (TryMove b 0 ⟨0, 1⟩).source = 0 ∧
        (TryMove b 0 ⟨0, 1⟩).dest = 1) := by
  have hR : ∀ n : Nat, Rank n = ((n / 8 : Nat) : Int) := fun _ => rfl
  have hF : ∀ n : Nat, File n = ((n % 8 : Nat) : Int) := fun _ => rfl
  refine ⟨?_, ?_, ?_, ?_⟩
  · intro h
    rw [TryMove_off b s delta (by rw [hR, hF]; omega)]
    rfl
  · intro h hv
    have hr : 0 ≤ Rank s + delta.rank ∧ Rank s + delta.rank < 8 := by rw [hR]; omega
    have hf : 0 ≤ File s + delta.file ∧ File s + delta.file < 8 := by rw [hF]; omega
    have hlt : ((Rank s + delta.rank) * 8 + (File s + delta.file)).toNat < 64 := by omega
    obtain ⟨t, ht⟩ : ∃ t : Fin 64, ((t.val : Nat) : Int) =
        (Rank s + delta.rank) * 8 + (File s + delta.file) :=
      ⟨⟨_, hlt⟩, by
        show ((((Rank s + delta.rank) * 8 + (File s + delta.file)).toNat : Nat) : Int) = _
        omega⟩
    rw [TryMove_on b s delta t hr hf ht] at hv ⊢
    rw [hR, hF] at ht
    split_ifs at hv ⊢ with h1 h2
    · exact ⟨rfl, ht, t.isLt⟩
    · exact absurd rfl hv
    · exact ⟨rfl, ht, t.isLt⟩
  · rw [TryMove_off b 0 ⟨-1, 0⟩ (by decide)]
    rfl
  · intro he
    rw [TryMove_on b 0 ⟨0, 1⟩ 1 (by decide) (by decide) (by decide), if_pos he]
    exact ⟨rfl, rfl, rfl⟩

/-- C5: when the target square `t` of `TryMove(s, delta)` is on the board, the result
has type regular if `t` is empty, type invalid if `t` is occupied by the side to move,
and type attack with the piece on `t` as captured piece if `t` is occupied by the other
colour; exactly one of the three cases applies. -/
theorem TryMove_classify (b : Board) (s : Nat) (delta : Delta) (t : Fin 64)
    (hr : 0 ≤ Rank s + delta.rank ∧ Rank s + delta.rank < 8)
    (hf : 0 ≤ File s + delta.file ∧ File s + delta.file < 8)
    (ht : (t.val : Int) = (Rank s + delta.rank) * 8 + (File s + delta.file)) :
    ((b.square_table_ t).empty = true → (TryMove b s delta).type = kRegular) ∧
    ((b.square_table_ t).empty = false → (b.square_table_ t).color = b.color_ →
      (TryMove b s delta).type = kInvalid) ∧
    ((b.square_table_ t).empty = false → (b.square_table_ t).color = Toggle b.color_ →
      (TryMove b s delta).type = kAttack ∧
        (TryMove b s delta).captured = (b.square_table_ t).piece) ∧
    ((b.square_table_ t).empty = true ∨
      ((b.square_table_ t).empty = false ∧ (b.square_table_ t).color = b.color_) ∨
      ((b.square_table_ t).empty = false ∧ (b.square_table_ t).color = Toggle b.color_)) ∧
    ¬ ((b.square_table_ t).empty = true ∧ (b.square_table_ t).empty = false) ∧
    ¬ ((b.square_table_ t).color = b.color_ ∧ (b.square_table_ t).color = Toggle b.color_) := by
  rw [TryMove_on b s delta t hr hf ht]
  refine ⟨?_, ?_, ?_, ?_, ?_, ?_⟩
  · intro he
    rw [if_pos he]
    rfl
  · intro he hc
    rw [if_neg (by simp [he]), if_pos hc]
    rfl
  · intro he hc
    have hne : (b.square_table_ t).color ≠ b.color_ := by
      rw [hc]
      exact Toggle_ne _
    rw [if_neg (by simp [he]), if_neg hne]
    exact ⟨rfl, rfl⟩
  · cases he : (b.square_table_ t).empty
    · right
      by_cases hc : (b.square_table_ t).color = b.color_
      · exact Or.inl ⟨rfl, hc⟩
      · exact Or.inr ⟨rfl, (ne_iff_eq_Toggle _ _).1 hc⟩
    · exact Or.inl rfl
  · rintro ⟨h1, h2⟩
    rw [h1] at h2
    exact Bool.noConfusion h2
  · rintro ⟨h1, h2⟩
    rw [h1] at h2
    exact Toggle_ne _ h2.symm

/-! ## Update and Undo -/

/-- C6: for every board and every move `m` of type not invalid with source and
destination in 0..63, source different from destination and a non-empty source
square: `Update(m)` succeeds, afterwards the source square is marked empty, the
destination square is non-empty with the piece and colour the source square held
before, the side to move is toggled, and every other record is unchanged. -/
theorem Update_effect (b : Board) (m : Move) (ht : m.type ≠ kInvalid)
    (hs : m.source < 64) (hd : m.dest < 64) (hne : m.source ≠ m.dest)
    (hocc : (b.square_table_ ⟨m.source, hs⟩).empty = false) :
    ∃ b1, Update b m = some b1 ∧
      (b1.square_table_ ⟨m.source, hs⟩).empty = true ∧
      (b1.square_table_ ⟨m.dest, hd⟩).empty = false ∧
      (b1.square_table_ ⟨m.dest, hd⟩).piece = (b.square_table_ ⟨m.source, hs⟩).piece ∧
      (b1.square_table_ ⟨m.dest, hd⟩).color = (b.square_table_ ⟨m.source, hs⟩).color ∧
      b1.color_ = Toggle b.color_ ∧
      ∀ i : Fin 64, i ≠ ⟨m.source, hs⟩ → i ≠ ⟨m.dest, hd⟩ →
        b1.square_table_ i = b.square_table_ i := by
  have hsd : (⟨m.source, hs⟩ : Fin 64) ≠ ⟨m.dest, hd⟩ := fun h => hne (Fin.mk.inj h)
  unfold Update
  rw [if_neg ht, dif_pos ⟨hs, hd⟩]
  simp only [hocc, Bool.false_eq_true, if_false]
  refine ⟨_, rfl, ?_⟩
  · refine ⟨?_, ?_, ?_, ?_, rfl, ?_⟩
    · simp [setSq, hsd]
    · simp [setSq, hsd]
    · simp [setSq, hsd]
    · simp [setSq, hsd]
    · intro i h1 h2
      simp [setSq, h1, h2]

/-- C7: for every board with side to move `c` and every move `m` of type not invalid
whose source and destination are squares (0..63) and differ, and whose destination
square is non-empty holding piece `p`: `Undo(m)` succeeds, afterwards the side to move
is `Toggle(c)`, the source square is non-empty with piece `p` and colour `Toggle(c)`,
the destination square is non-empty with piece `m.captured` and colour `c` when `m` is
an attack and empty otherwise, and every other record is unchanged. -/
theorem Undo_effect (b : Board) (m : Move) (ht : m.type ≠ kInvalid)
    (hs : m.source < 64) (hd : m.dest < 64) (hne : m.source ≠ m.dest)
    (hocc : (b.square_table_ ⟨m.dest, hd⟩).empty = false) :
    ∃ b1, Undo b m = some b1 ∧
      b1.color_ = Toggle b.color_ ∧
      (b1.square_table_ ⟨m.source, hs⟩).empty = false ∧
      (b1.square_table_ ⟨m.source, hs⟩).piece = (b.square_table_ ⟨m.dest, hd⟩).piece ∧
      (b1.square_table_ ⟨m.source, hs⟩).color = Toggle b.color_ ∧
      (m.type = kAttack →
        (b1.square_table_ ⟨m.dest, hd⟩).empty = false ∧
        (b1.square_table_ ⟨m.dest, hd⟩).piece = m.captured ∧
        (b1.square_table_ ⟨m.dest, hd⟩).color = b.color_) ∧
      (m.type ≠ kAttack → (b1.square_table_ ⟨m.dest, hd⟩).empty = true) ∧
      ∀ i : Fin 64, i ≠ ⟨m.source, hs⟩ → i ≠ ⟨m.dest, hd⟩ →
        b1.square_table_ i = b.square_table_ i := by
  have hsd : (⟨m.source, hs⟩ : Fin 64) ≠ ⟨m.dest, hd⟩ := fun h => hne (Fin.mk.inj h)
  unfold Undo
  rw [if_neg ht, dif_pos ⟨hs, hd⟩]
  simp only [hocc, Bool.false_eq_true, if_false]
  refine ⟨_, rfl, ?_⟩
  · have hds : m.dest ≠ m.source := Ne.symm hne
    refine ⟨rfl, ?_, ?_, ?_, ?_, ?_, ?_⟩
    · by_cases ha : m.type = kAttack <;> simp [setSq, hne, hds, ha]
    · by_cases ha : m.type = kAttack <;> simp [setSq, hne, hds, ha]
    · by_cases ha : m.type = kAttack <;> simp [setSq, hne, hds, ha]
    · intro ha
      simp [setSq, hne, hds, ha]
    · intro ha
      simp [setSq, hne, hds, ha]
    · intro i h1 h2
      by_cases ha : m.type = kAttack <;> simp [setSq, h1, h2, ha]

/-! ## Construction -/

/-- The scan of one square over a list of piece types sorted by enumerator value:
the record stays empty exactly when no bitboard of the list has the bit, and otherwise
names the first pair of the scan order whose bitboard has it. -/
theorem scanPieces_spec (board : Fin 12 → BitBoard) (s : Nat) (ps : List Piece)
    (hsorted : ps.Pairwise (fun a c => a.toNat < c.toNat)) :
    ((scanPieces board s ps (SquareState.mkEmpty s)).empty = true ↔
      ∀ p ∈ ps, ∀ c, (bitBoardOf board c p).testBit s = false) ∧
    ((scanPieces board s ps (SquareState.mkEmpty s)).empty = false →
      (scanPieces board s ps (SquareState.mkEmpty s)).piece ∈ ps ∧
      (bitBoardOf board (scanPieces board s ps (SquareState.mkEmpty s)).color
        (scanPieces board s ps (SquareState.mkEmpty s)).piece).testBit s = true ∧
      ∀ p ∈ ps, ∀ c, (bitBoardOf board c p).testBit s = true →
        scanIndex (scanPieces board s ps (SquareState.mkEmpty s)).color
          (scanPieces board s ps (SquareState.mkEmpty s)).piece ≤ scanIndex c p) := by
  induction ps with
  | nil =>
    simp [scanPieces, SquareState.mkEmpty]
  | cons p rest ih =>
    have hrest := ih (List.Pairwise.of_cons hsorted)
    have hlt : ∀ q ∈ rest, p.toNat < q.toNat := (List.pairwise_cons.1 hsorted).1
    by_cases hw : (bitBoardOf board kWhite p).testBit s = true
    · have hr : scanPieces board s (p :: rest) (SquareState.mkEmpty s) =
          SquareState.mkOccupied kWhite p s := by
        simp [scanPieces, hw]
      rw [hr]
      refine ⟨?_, ?_⟩
      · constructor
        · intro h
          exact absurd h (by simp [SquareState.mkOccupied])
        · intro h
          have := h p (List.mem_cons_self _ _) kWhite
          rw [hw] at this
          exact absurd this (by decide)
      · intro _
        refine ⟨List.mem_cons_self _ _, hw, ?_⟩
        intro q hq c _
        rcases List.mem_cons.1 hq with rfl | hq
        · cases c <;> simp [scanIndex, SquareState.mkOccupied]
        · have := hlt q hq
          cases c <;> simp [scanIndex, SquareState.mkOccupied] <;> omega
    · by_cases hb : (bitBoardOf board kBlack p).testBit s = true
      · have hr : scanPieces board s (p :: rest) (SquareState.mkEmpty s) =
            SquareState.mkOccupied kBlack p s := by
          simp [scanPieces, hw, hb]
        rw [hr]
        refine ⟨?_, ?_⟩
        · constructor
          · intro h
            exact absurd h (by simp [SquareState.mkOccupied])
          · intro h
            have := h p (List.mem_cons_self _ _) kBlack
            rw [hb] at this
            exact absurd this (by decide)
        · intro _
          refine ⟨List.mem_cons_self _ _, hb, ?_⟩
          intro q hq c hc
          rcases List.mem_cons.1 hq with rfl | hq
          · cases c
            · exact absurd hc hw
            · exact le_refl _
          · have := hlt q hq
            cases c <;> simp [scanIndex, SquareState.mkOccupied] <;> omega
      · have hr : scanPieces board s (p :: rest) (SquareState.mkEmpty s) =
            scanPieces board s rest (SquareState.mkEmpty s) := by
          simp [scanPieces, hw, hb]
        rw [hr]
        have hpc : ∀ c, (bitBoardOf board c p).testBit s = false := by
          intro c
          cases c
          · simpa using hw
          · simpa using hb
        refine ⟨?_, ?_⟩
        · rw [hrest.1]
          constructor
          · intro h q hq c
            rcases List.mem_cons.1 hq with rfl | hq
            · exact hpc c
            · exact h q hq c
          · intro h q hq c
            exact h q (List.mem_cons_of_mem _ hq) c
        · intro he
          obtain ⟨h1, h2, h3⟩ := hrest.2 he
          refine ⟨List.mem_cons_of_mem _ h1, h2, ?_⟩
          intro q hq c hc
          rcases List.mem_cons.1 hq with rfl | hq
          · rw [hpc c] at hc
            exact absurd hc (by decide)
          · exact h3 q hq c hc

theorem mem_allPieces (p : Piece) : p ∈ allPieces := by
  cases p <;> simp [allPieces]

theorem scanIndex_inj (c1 c2 : Color) (p1 p2 : Piece)
    (h : scanIndex c1 p1 = scanIndex c2 p2) : c1 = c2 ∧ p1 = p2 := by
  cases c1 <;> cases c2 <;> cases p1 <;> cases p2 <;> first | exact ⟨rfl, rfl⟩ | exact absurd h (by decide)

/-- C8: immediately after construction from 12 bitboards, for every square `s`: the
record of `s` is empty if and only if none of the 12 bitboards has bit `s` set; when
it is non-empty the bitboard of the recorded (colour, piece) has bit `s` set and that
pair is the first with bit `s` set in the scan order (pawn .. king, white before black
for each piece type), hence the only one when no two bitboards share bit `s`; the
side to move is white. -/
theorem constructor_sync (board : Fin 12 → BitBoard) (s : Fin 64) :
    (((Board.ofBitBoards board).square_table_ s).empty = true ↔
      ∀ c p, (GetBitBoard (Board.ofBitBoards board) c p).testBit s.val = false) ∧
    (((Board.ofBitBoards board).square_table_ s).empty = false →
      (GetBitBoard (Board.ofBitBoards board) ((Board.ofBitBoards board).square_table_ s).color
        ((Board.ofBitBoards board).square_table_ s).piece).testBit s.val = true ∧
      (∀ c p, (GetBitBoard (Board.ofBitBoards board) c p).testBit s.val = true →
        scanIndex ((Board.ofBitBoards board).square_table_ s).color
          ((Board.ofBitBoards board).square_table_ s).piece ≤ scanIndex c p) ∧
      ((∀ c1 p1 c2 p2, (c1, p1) ≠ (c2, p2) →
          ¬ ((GetBitBoard (Board.ofBitBoards board) c1 p1).testBit s.val = true ∧
            (GetBitBoard (Board.ofBitBoards board) c2 p2).testBit s.val = true)) →
        ∀ c p, (GetBitBoard (Board.ofBitBoards board) c p).testBit s.val = true →
          c = ((Board.ofBitBoards board).square_table_ s).color ∧
          p = ((Board.ofBitBoards board).square_table_ s).piece)) ∧
    (Board.ofBitBoards board).color_ = kWhite ∧
    Board.init = Board.ofBitBoards kInitialBoardPosition := by
  have hsorted : allPieces.Pairwise (fun a c => a.toNat < c.toNat) := by
    simp [allPieces, Piece.toNat]
  have h := scanPieces_spec board s.val allPieces hsorted
  refine ⟨?_, ?_, rfl, rfl⟩
  · show (scanPieces board s.val allPieces (SquareState.mkEmpty s.val)).empty = true ↔
      ∀ c p, (bitBoardOf board c p).testBit s.val = false
    rw [h.1]
    constructor
    · intro hh c p
      exact hh p (mem_allPieces p) c
    · intro hh p _ c
      exact hh c p
  · intro he
    obtain ⟨_, h2, h3⟩ := h.2 he
    refine ⟨h2, fun c p hc => h3 p (mem_allPieces p) c hc, ?_⟩
    intro hdis c p hc
    by_contra hne
    refine hdis c p _ _ ?_ ⟨hc, h2⟩
    intro heq
    apply hne
    exact ⟨congrArg Prod.fst heq, congrArg Prod.snd heq⟩

/-! ## Score -/

/-- The score loop adds to `us` the material of the side to move and to `them` the
material of the other colour. -/
theorem scoreLoop_eq (v : Piece → Int) (c : Color) (l : List SquareState) (acc : Int × Int) :
    scoreLoop v c l acc =
      (acc.1 + materialOf v c l, acc.2 + materialOf v (Toggle c) l) := by
  induction l generalizing acc with
  | nil => simp [scoreLoop, materialOf]
  | cons st rest ih =>
    have hcons : ∀ d, materialOf v d (st :: rest) =
        (if st.empty = false ∧ st.color = d then v st.piece else 0) + materialOf v d rest := by
      intro d
      simp [materialOf]
    rw [hcons, hcons]
    obtain ⟨sq, e, col, pc⟩ := st
    have hTc : ¬ c = Toggle c := fun h => Toggle_ne c h.symm
    cases e
    · by_cases hc : c = col
      · subst hc
        simp only [scoreLoop, ih, hTc, Bool.false_eq_true, if_false, if_true, true_and, and_self]
        refine Prod.ext ?_ ?_ <;> simp only [] <;> ring
      · have hT : col = Toggle c := (ne_iff_eq_Toggle _ _).1 (Ne.symm hc)
        subst hT
        simp only [scoreLoop, ih, hTc, Toggle_ne, Bool.false_eq_true, if_false, if_true,
          true_and, and_self]
        refine Prod.ext ?_ ?_ <;> simp only [] <;> ring
    · simp only [scoreLoop, ih]
      simp

/-- C9: for every square table and colour `c`, `Score()` with side to move `Toggle(c)`
is the negation of `Score()` with side to move `c` on the same table, and `Score()`
equals the sum of the piece values of the non-empty squares of the side to move minus
the sum over the non-empty squares of the other colour. -/
theorem Score_symmetry (kPieceValue : Piece → Int) (board : Fin 12 → BitBoard)
    (table : Fin 64 → SquareState) (c : Color) :
    Score kPieceValue ⟨board, table, Toggle c⟩ = - Score kPieceValue ⟨board, table, c⟩ ∧
    Score kPieceValue ⟨board, table, c⟩ =
      materialOf kPieceValue c (tableList table) -
        materialOf kPieceValue (Toggle c) (tableList table) := by
  simp only [Score, scoreLoop_eq, Toggle_Toggle]
  constructor <;> ring


/-! ## Pawn moves -/

/-- One capture step of `PawnMoves`: the candidate is added exactly when it is an
attack, that is when the target is on the board and holds the opposite colour. -/
theorem pawn_attack_step (b : Board) (s : Nat) (delta : Delta) (res : List Move) :
    (if (TryMove b s delta).type = kAttack then AddMove res (TryMove b s delta) else res) =
      res ++ pawnAttackSpec b s (Rank s + delta.rank) (File s + delta.file) := by
  rw [TryMove_eq_squareAt]
  unfold pawnAttackSpec AddMove
  generalize b.color_ = bc
  rcases squareAt b (Rank s + delta.rank) (File s + delta.file) with _ | ⟨d, sq, e, c, p⟩
  · simp [Move.ofType]
  · cases e <;> cases c <;> cases bc <;> simp [Move.ofType, Move.mk3, Toggle]

/-- The push steps of `PawnMoves` for a forward delta `d1`, a double-step delta `d2`
and a home-rank test `home`. -/
theorem pawn_push_step (b : Board) (s : Nat) (d1 d2 : Delta) (home : Prop) [Decidable home]
    (res : List Move) :
    (if (TryMove b s d1).type = kRegular then
        if home then
          if (TryMove b s d2).type = kRegular then
            AddMove (AddMove res (TryMove b s d1)) (TryMove b s d2)
          else AddMove res (TryMove b s d1)
        else AddMove res (TryMove b s d1)
      else res) =
      res ++
        (match squareAt b (Rank s + d1.rank) (File s + d1.file) with
          | some (t1, st1) =>
            if st1.empty = true then
              Move.mk3 kRegular s t1 ::
                (if home then
                  match squareAt b (Rank s + d2.rank) (File s + d2.file) with
                  | some (t2, st2) => if st2.empty = true then [Move.mk3 kRegular s t2] else []
                  | none => []
                else [])
            else []
          | none => []) := by
  simp only [TryMove_eq_squareAt, AddMove]
  generalize b.color_ = bc
  rcases squareAt b (Rank s + d1.rank) (File s + d1.file) with _ | ⟨t1, sq1, e1, c1, p1⟩
  · simp [Move.ofType]
  · rcases squareAt b (Rank s + d2.rank) (File s + d2.file) with _ | ⟨t2, sq2, e2, c2, p2⟩
    · by_cases hr : home <;> cases e1 <;> cases c1 <;> cases bc <;>
        simp [Move.ofType, Move.mk3, hr]
    · by_cases hr : home <;> cases e1 <;> cases c1 <;> cases e2 <;> cases c2 <;> cases bc <;>
        simp [Move.ofType, Move.mk3, hr]

theorem pawnAttackSpec_mem (b : Board) (s : Nat) (r f : Int) (m : Move) :
    m ∈ pawnAttackSpec b s r f ↔
      ∃ t st, squareAt b r f = some (t, st) ∧ st.empty = false ∧
        st.color = Toggle b.color_ ∧ m = ⟨kAttack, s, t, st.piece⟩ := by
  unfold pawnAttackSpec
  rcases squareAt b r f with _ | ⟨t, st⟩
  · simp
  · by_cases h : st.empty = false ∧ st.color = Toggle b.color_
    · simp only [h, and_self, if_true, List.mem_singleton, Option.some.injEq, Prod.mk.injEq]
      constructor
      · intro hm
        exact ⟨t, st, ⟨rfl, rfl⟩, h.1, h.2, hm⟩
      · rintro ⟨t1, st1, ⟨rfl, rfl⟩, _, _, hm⟩
        exact hm
    · simp only [h, if_false, List.not_mem_nil, Option.some.injEq, Prod.mk.injEq, false_iff]
      rintro ⟨t1, st1, ⟨rfl, rfl⟩, h1, h2, _⟩
      exact h ⟨h1, h2⟩

theorem pawnPushSpec_mem (b : Board) (s : Nat) (m : Move) :
    m ∈ pawnPushSpec b s ↔
      (∃ t st, squareAt b (Rank s + (if b.color_ = kWhite then 1 else -1)) (File s) = some (t, st) ∧
        st.empty = true ∧ m = Move.mk3 kRegular s t) ∨
      (∃ t1 st1 t2 st2,
        squareAt b (Rank s + (if b.color_ = kWhite then 1 else -1)) (File s) = some (t1, st1) ∧
        st1.empty = true ∧ Rank s = (if b.color_ = kWhite then 1 else 6) ∧
        squareAt b (Rank s + 2 * (if b.color_ = kWhite then 1 else -1)) (File s) = some (t2, st2) ∧
        st2.empty = true ∧ m = Move.mk3 kRegular s t2) := by
  unfold pawnPushSpec
  simp only
  generalize (if b.color_ = kWhite then (1 : Int) else -1) = fw
  generalize (if b.color_ = kWhite then (1 : Int) else 6) = home
  rcases squareAt b (Rank s + fw) (File s) with _ | ⟨t1, st1⟩
  · simp
  · cases h1 : st1.empty
    · simp [h1]
    · by_cases hh : Rank s = home
      · rcases squareAt b (Rank s + 2 * fw) (File s) with _ | ⟨t2, st2⟩
        · simp [h1, hh, and_assoc]
        · cases h2 : st2.empty <;> simp [h1, hh, h2, and_assoc]
      · simp [h1, hh, and_assoc]


/-- The code of `PawnMoves` appends exactly the moves of `PawnMovesSpec`. -/
theorem PawnMoves_eq (b : Board) (res : List Move) (s : Nat) :
    PawnMoves b res s = res ++ PawnMovesSpec b s := by
  unfold PawnMoves PawnMovesSpec pawnPushSpec
  simp only [pawn_attack_step]
  rw [pawn_push_step]
  cases hc : b.color_ <;>
    simp [Delta.add, Delta.scale, kU, kD, kR, kL, Int.sub_eq_add_neg]

/-- C10: with forward meaning rank+1 for white to move and rank-1 for black to move,
`PawnMoves` appends to `res` exactly: a regular single step if and only if the square
one step forward is on the board and empty; a regular double step if and only if in
addition the source is on the home rank (1 for white, 6 for black) and the square two
steps forward is on the board and empty; an attack to each forward-diagonal square if
and only if that square is on the board and holds a piece of the opposite colour; and
nothing else (the appended list is `PawnMovesSpec`, captures first, then the pushes).
When the square one step forward is occupied no push is added. -/
theorem PawnMoves_spec (b : Board) (res : List Move) (s : Nat) :
    PawnMoves b res s = res ++ PawnMoves b [] s ∧
    PawnMoves b [] s = PawnMovesSpec b s ∧
    (∀ m, m ∈ PawnMoves b [] s ↔
      (∃ t st,
        squareAt b (Rank s + (if b.color_ = kWhite then 1 else -1)) (File s) = some (t, st) ∧
        st.empty = true ∧ m = Move.mk3 kRegular s t) ∨
      (∃ t1 st1 t2 st2,
        squareAt b (Rank s + (if b.color_ = kWhite then 1 else -1)) (File s) = some (t1, st1) ∧
        st1.empty = true ∧ Rank s = (if b.color_ = kWhite then 1 else 6) ∧
        squareAt b (Rank s + 2 * (if b.color_ = kWhite then 1 else -1)) (File s) =
          some (t2, st2) ∧
        st2.empty = true ∧ m = Move.mk3 kRegular s t2) ∨
      (∃ df : Int, (df = 1 ∨ df = -1) ∧ ∃ t st,
        squareAt b (Rank s + (if b.color_ = kWhite then 1 else -1)) (File s + df) =
          some (t, st) ∧
        st.empty = false ∧ st.color = Toggle b.color_ ∧ m = ⟨kAttack, s, t, st.piece⟩)) ∧
    (∀ t st,
      squareAt b (Rank s + (if b.color_ = kWhite then 1 else -1)) (File s) = some (t, st) →
      st.empty = false → ∀ m ∈ PawnMoves b [] s, m.type ≠ kRegular) := by
  have hmem : ∀ m, m ∈ PawnMoves b [] s ↔
      (∃ t st,
        squareAt b (Rank s + (if b.color_ = kWhite then 1 else -1)) (File s) = some (t, st) ∧
        st.empty = true ∧ m = Move.mk3 kRegular s t) ∨
      (∃ t1 st1 t2 st2,
        squareAt b (Rank s + (if b.color_ = kWhite then 1 else -1)) (File s) = some (t1, st1) ∧
        st1.empty = true ∧ Rank s = (if b.color_ = kWhite then 1 else 6) ∧
        squareAt b (Rank s + 2 * (if b.color_ = kWhite then 1 else -1)) (File s) =
          some (t2, st2) ∧
        st2.empty = true ∧ m = Move.mk3 kRegular s t2) ∨
      (∃ df : Int, (df = 1 ∨ df = -1) ∧ ∃ t st,
        squareAt b (Rank s + (if b.color_ = kWhite then 1 else -1)) (File s + df) =
          some (t, st) ∧
        st.empty = false ∧ st.color = Toggle b.color_ ∧ m = ⟨kAttack, s, t, st.piece⟩) := by
    intro m
    rw [PawnMoves_eq, List.nil_append]
    unfold PawnMovesSpec
    simp only [List.mem_append, pawnAttackSpec_mem, pawnPushSpec_mem, Int.sub_eq_add_neg]
    constructor
    · rintro ((h | h) | (h | h))
      · exact Or.inr (Or.inr ⟨1, Or.inl rfl, h⟩)
      · exact Or.inr (Or.inr ⟨-1, Or.inr rfl, h⟩)
      · exact Or.inl h
      · exact Or.inr (Or.inl h)
    · rintro (h | h | ⟨df, (rfl | rfl), h⟩)
      · exact Or.inr (Or.inl h)
      · exact Or.inr (Or.inr h)
      · exact Or.inl (Or.inl h)
      · exact Or.inl (Or.inr h)
  refine ⟨?_, ?_, hmem, ?_⟩
  · rw [PawnMoves_eq, PawnMoves_eq, List.nil_append]
  · rw [PawnMoves_eq, List.nil_append]
  · intro t st hsq he m hm hreg
    rcases (hmem m).1 hm with ⟨t1, st1, h1, h2, _⟩ | ⟨t1, st1, _, _, h1, h2, _⟩ | ⟨_, _, _, _, _, _, _, h⟩
    · rw [hsq] at h1
      simp only [Option.some.injEq, Prod.mk.injEq] at h1
      rw [← h1.2, he] at h2
      exact Bool.noConfusion h2
    · rw [hsq] at h1
      simp only [Option.some.injEq, Prod.mk.injEq] at h1
      rw [← h1.2, he] at h2
      exact Bool.noConfusion h2
    · rw [h] at hreg
      exact MoveType.noConfusion hreg


/-! ## Generated moves -/

/-- A move accepted by `TryMove` for a non-zero delta starts at the source and is
well placed on the board. -/
theorem Generated_ok (b : Board) (src : Nat) (m : Move) (h : Generated b src m) :
    m.source = src ∧ DestOK b m := by
  obtain ⟨delta, hnz, rfl, hv⟩ := h
  by_cases hon : (0 ≤ Rank src + delta.rank ∧ Rank src + delta.rank < 8) ∧
      (0 ≤ File src + delta.file ∧ File src + delta.file < 8)
  · have hlt : ((Rank src + delta.rank) * 8 + (File src + delta.file)).toNat < 64 := by omega
    obtain ⟨t, ht⟩ : ∃ t : Fin 64, ((t.val : Nat) : Int) =
        (Rank src + delta.rank) * 8 + (File src + delta.file) :=
      ⟨⟨_, hlt⟩, by
        show ((((Rank src + delta.rank) * 8 + (File src + delta.file)).toNat : Nat) : Int) = _
        omega⟩
    have hne : t.val ≠ src := by
      have hR : Rank src = ((src / 8 : Nat) : Int) := rfl
      have hF : File src = ((src % 8 : Nat) : Int) := rfl
      rw [hR, hF] at ht hon
      omega
    rw [TryMove_on b src delta t hon.1 hon.2 ht] at hv ⊢
    unfold DestOK
    by_cases he : (b.square_table_ t).empty = true
    · rw [if_pos he]
      exact ⟨rfl, t.isLt, hne, Or.inl ⟨rfl, he⟩⟩
    · rw [if_neg he] at hv ⊢
      by_cases hc : (b.square_table_ t).color = b.color_
      · rw [if_pos hc] at hv
        exact absurd rfl hv
      · rw [if_neg hc]
        exact ⟨rfl, t.isLt, hne,
          Or.inr ⟨rfl, by simpa using he, (ne_iff_eq_Toggle _ _).1 hc, rfl⟩⟩
  · rw [TryMove_off b src delta (by omega)] at hv
    exact absurd rfl hv

theorem Generated_of_TryMove (b : Board) (src : Nat) (delta : Delta)
    (hnz : delta.rank ≠ 0 ∨ delta.file ≠ 0) (hv : (TryMove b src delta).type ≠ kInvalid) :
    Generated b src (TryMove b src delta) :=
  ⟨delta, hnz, rfl, hv⟩

theorem mem_addIf (c : Prop) [Decidable c] (res : List Move) (x m : Move)
    (h : m ∈ (if c then res ++ [x] else res)) : m ∈ res ∨ (c ∧ m = x) := by
  by_cases hc : c
  · rw [if_pos hc] at h
    rcases List.mem_append.1 h with h | h
    · exact Or.inl h
    · exact Or.inr ⟨hc, List.mem_singleton.1 h⟩
  · rw [if_neg hc] at h
    exact Or.inl h

/-- The pawn generator only appends generated moves. -/
theorem PawnMoves_generated (b : Board) (res : List Move) (s : Nat) (m : Move)
    (h : m ∈ PawnMoves b res s) : m ∈ res ∨ Generated b s m := by
  have hfw : (if b.color_ = kWhite then kU else kD).rank ≠ 0 := by
    cases b.color_ <;> decide
  have gA : ∀ delta : Delta, delta.rank ≠ 0 → (TryMove b s delta).type = kAttack →
      Generated b s (TryMove b s delta) := by
    intro delta hnz ht
    exact Generated_of_TryMove b s delta (Or.inl hnz) (by rw [ht]; decide)
  have gR : ∀ delta : Delta, delta.rank ≠ 0 → (TryMove b s delta).type = kRegular →
      Generated b s (TryMove b s delta) := by
    intro delta hnz ht
    exact Generated_of_TryMove b s delta (Or.inl hnz) (by rw [ht]; decide)
  have h1 : ((if b.color_ = kWhite then kU else kD).add kR).rank ≠ 0 := by
    simp only [Delta.add, kR]
    omega
  have h2 : ((if b.color_ = kWhite then kU else kD).add kL).rank ≠ 0 := by
    simp only [Delta.add, kL]
    omega
  have h4 : ((if b.color_ = kWhite then kU else kD).scale 2).rank ≠ 0 := by
    simp only [Delta.scale]
    omega
  have hr2 : ∀ x, x ∈ (if (TryMove b s ((if b.color_ = kWhite then kU else kD).add kL)).type
        = kAttack then
        (if (TryMove b s ((if b.color_ = kWhite then kU else kD).add kR)).type = kAttack then
          res ++ [TryMove b s ((if b.color_ = kWhite then kU else kD).add kR)] else res) ++
          [TryMove b s ((if b.color_ = kWhite then kU else kD).add kL)]
        else
        (if (TryMove b s ((if b.color_ = kWhite then kU else kD).add kR)).type = kAttack then
          res ++ [TryMove b s ((if b.color_ = kWhite then kU else kD).add kR)] else res)) →
      x ∈ res ∨ Generated b s x := by
    intro x hx
    rcases mem_addIf _ _ _ _ hx with hx | ⟨hc, rfl⟩
    · rcases mem_addIf _ _ _ _ hx with hx | ⟨hc, rfl⟩
      · exact Or.inl hx
      · exact Or.inr (gA _ h1 hc)
    · exact Or.inr (gA _ h2 hc)
  unfold PawnMoves at h
  simp only [AddMove] at h
  generalize (if b.color_ = kWhite then kU else kD) = fw at h hfw h1 h2 h4 hr2
  by_cases h3 : (TryMove b s fw).type = kRegular
  · rw [if_pos h3] at h
    have hsingle : m ∈ (if (TryMove b s (fw.add kL)).type = kAttack then
          (if (TryMove b s (fw.add kR)).type = kAttack then res ++ [TryMove b s (fw.add kR)]
            else res) ++ [TryMove b s (fw.add kL)]
          else
          (if (TryMove b s (fw.add kR)).type = kAttack then res ++ [TryMove b s (fw.add kR)]
            else res)) ++ [TryMove b s fw] → m ∈ res ∨ Generated b s m := by
      intro h
      rcases List.mem_append.1 h with h | h
      · exact hr2 m h
      · rw [List.mem_singleton.1 h]
        exact Or.inr (gR _ hfw h3)
    by_cases hh : (b.color_ = kWhite ∧ Rank s = 1) ∨ (b.color_ = kBlack ∧ Rank s = 6)
    · rw [if_pos hh] at h
      by_cases hd : (TryMove b s (fw.scale 2)).type = kRegular
      · rw [if_pos hd] at h
        rcases List.mem_append.1 h with h | h
        · exact hsingle h
        · rw [List.mem_singleton.1 h]
          exact Or.inr (gR _ h4 hd)
      · rw [if_neg hd] at h
        exact hsingle h
    · rw [if_neg hh] at h
      exact hsingle h
  · rw [if_neg h3] at h
    exact hr2 m h

/-- The loop of `KnightMoves` and `KingMoves` only appends generated moves. -/
theorem stepMoves_generated (b : Board) (s : Nat) (deltas : List Delta)
    (hnz : ∀ delta ∈ deltas, delta.rank ≠ 0 ∨ delta.file ≠ 0) (res : List Move) (m : Move)
    (h : m ∈ stepMoves b s deltas res) : m ∈ res ∨ Generated b s m := by
  induction deltas generalizing res with
  | nil => exact Or.inl h
  | cons delta rest ih =>
    unfold stepMoves at h
    simp only [AddMove] at h
    rcases ih (fun x hx => hnz x (List.mem_cons_of_mem _ hx)) _ h with h | h
    · rcases mem_addIf _ _ _ _ h with h | ⟨hc, rfl⟩
      · exact Or.inl h
      · exact Or.inr (Generated_of_TryMove b s delta (hnz delta (List.mem_cons_self _ _)) hc)
    · exact Or.inr h

/-- The ray loop only appends generated moves, as long as the accumulated delta is a
positive multiple of a non-zero direction. -/
theorem slidingLoop_generated (b : Board) (s : Nat) (d : Delta)
    (hnz : d.rank ≠ 0 ∨ d.file ≠ 0) (fuel : Nat) (dest : Delta) (res out : List Move)
    (hk : ∃ k : Int, 1 ≤ k ∧ dest.rank = k * d.rank ∧ dest.file = k * d.file)
    (h : slidingLoop b s d fuel dest res = some out) (m : Move) (hm : m ∈ out) :
    m ∈ res ∨ Generated b s m := by
  induction fuel generalizing dest res with
  | zero => exact absurd h (by simp [slidingLoop])
  | succ n ih =>
    have hdest : dest.rank ≠ 0 ∨ dest.file ≠ 0 := by
      obtain ⟨k, hk1, hr, hf⟩ := hk
      rw [hr, hf]
      rcases hnz with hnz | hnz
      · exact Or.inl (mul_ne_zero (by omega) hnz)
      · exact Or.inr (mul_ne_zero (by omega) hnz)
    have hstep : ∀ x, x ∈ (if (TryMove b s dest).type ≠ kInvalid then res ++ [TryMove b s dest]
        else res) → x ∈ res ∨ Generated b s x := by
      intro x hx
      rcases mem_addIf _ _ _ _ hx with hx | ⟨hc, rfl⟩
      · exact Or.inl hx
      · exact Or.inr (Generated_of_TryMove b s dest hdest hc)
    unfold slidingLoop at h
    simp only [AddMove] at h
    by_cases hreg : (TryMove b s dest).type = kRegular
    · rw [if_pos hreg] at h
      have hk2 : ∃ k : Int, 1 ≤ k ∧ (dest.add d).rank = k * d.rank ∧
          (dest.add d).file = k * d.file := by
        obtain ⟨k, hk1, hr, hf⟩ := hk
        refine ⟨k + 1, by omega, ?_, ?_⟩
        · simp only [Delta.add, hr]
          ring
        · simp only [Delta.add, hf]
          ring
      rcases ih _ _ hk2 h with h2 | h2
      · exact hstep m h2
      · exact Or.inr h2
    · rw [if_neg hreg] at h
      simp only [Option.some.injEq] at h
      rw [← h] at hm
      exact hstep m hm

theorem slideAll_generated (fuel : Nat) (b : Board) (s : Nat) (deltas : List Delta)
    (hnz : ∀ delta ∈ deltas, delta.rank ≠ 0 ∨ delta.file ≠ 0) (res out : List Move)
    (h : slideAll fuel b s deltas res = some out) (m : Move) (hm : m ∈ out) :
    m ∈ res ∨ Generated b s m := by
  induction deltas generalizing res with
  | nil =>
    simp only [slideAll, Option.some.injEq] at h
    rw [← h] at hm
    exact Or.inl hm
  | cons delta rest ih =>
    unfold slideAll at h
    cases hs : SlidingMoves fuel b res s delta with
    | none => simp [hs] at h
    | some mid =>
      simp only [hs] at h
      rcases ih (fun x hx => hnz x (List.mem_cons_of_mem _ hx)) _ h with h2 | h2
      · exact slidingLoop_generated b s delta (hnz delta (List.mem_cons_self _ _)) fuel delta
          res mid ⟨1, le_refl _, by ring, by ring⟩ hs m h2
      · exact Or.inr h2

theorem kDiagonals_nz : ∀ delta ∈ kDiagonals, delta.rank ≠ 0 ∨ delta.file ≠ 0 := by
  decide

theorem kOrthogonals_nz : ∀ delta ∈ kOrthogonals, delta.rank ≠ 0 ∨ delta.file ≠ 0 := by
  decide

theorem kKnightDeltas_nz : ∀ delta ∈ kKnightDeltas, delta.rank ≠ 0 ∨ delta.file ≠ 0 := by
  decide

theorem kOmnigonals_nz : ∀ delta ∈ kOmnigonals, delta.rank ≠ 0 ∨ delta.file ≠ 0 := by
  decide

/-- The `switch` of `PossibleMoves` only appends moves generated from the square the
record names. -/
theorem pieceMoves_generated (fuel : Nat) (b : Board) (res out : List Move)
    (state : SquareState) (h : pieceMoves fuel b res state = some out) (m : Move)
    (hm : m ∈ out) : m ∈ res ∨ Generated b state.square m := by
  unfold pieceMoves at h
  cases hp : state.piece <;> simp only [hp] at h
  · simp only [Option.some.injEq] at h
    rw [← h] at hm
    exact PawnMoves_generated b res _ m hm
  · simp only [Option.some.injEq] at h
    rw [← h] at hm
    exact stepMoves_generated b _ _ kKnightDeltas_nz res m hm
  · exact slideAll_generated fuel b _ _ kDiagonals_nz res out h m hm
  · exact slideAll_generated fuel b _ _ kOrthogonals_nz res out h m hm
  · unfold QueenMoves at h
    cases hb : BishopMoves fuel b res state.square with
    | none => simp [hb] at h
    | some mid =>
      simp only [hb] at h
      rcases slideAll_generated fuel b _ _ kOrthogonals_nz mid out h m hm with h2 | h2
      · exact slideAll_generated fuel b _ _ kDiagonals_nz res mid hb m h2
      · exact Or.inr h2
  · simp only [Option.some.injEq] at h
    rw [← h] at hm
    exact stepMoves_generated b _ _ kOmnigonals_nz res m hm

/-- Every move of the enumeration loop is generated from the square named by a
non-empty record of the side to move. -/
theorem possibleLoop_generated (fuel : Nat) (b : Board) (l : List SquareState)
    (res out : List Move) (h : possibleLoop fuel b l res = some out) (m : Move)
    (hm : m ∈ out) :
    m ∈ res ∨ ∃ state ∈ l, state.empty = false ∧ state.color = b.color_ ∧
      Generated b state.square m := by
  induction l generalizing res with
  | nil =>
    simp only [possibleLoop, Option.some.injEq] at h
    rw [← h] at hm
    exact Or.inl hm
  | cons state rest ih =>
    unfold possibleLoop at h
    by_cases hskip : state.empty = true ∨ state.color ≠ b.color_
    · rw [if_pos hskip] at h
      rcases ih _ h with h2 | ⟨st, hst, h2⟩
      · exact Or.inl h2
      · exact Or.inr ⟨st, List.mem_cons_of_mem _ hst, h2⟩
    · rw [if_neg hskip] at h
      have hne : state.empty = false ∧ state.color = b.color_ := by
        constructor
        · cases he : state.empty
          · rfl
          · exact absurd (Or.inl he) hskip
        · by_contra hc
          exact hskip (Or.inr hc)
      cases hp : pieceMoves fuel b res state with
      | none => simp [hp] at h
      | some mid =>
        simp only [hp] at h
        rcases ih _ h with h2 | ⟨st, hst, h2⟩
        · rcases pieceMoves_generated fuel b res mid state hp m h2 with h3 | h3
          · exact Or.inl h3
          · exact Or.inr ⟨state, List.mem_cons_self _ _, hne.1, hne.2, h3⟩
        · exact Or.inr ⟨st, List.mem_cons_of_mem _ hst, h2⟩

/-- On a well-indexed board every enumerated move starts on a square occupied by the
side to move and is well placed. -/
theorem PossibleMoves_ok (fuel : Nat) (b : Board) (hwf : WellIndexed b) (ms : List Move)
    (h : PossibleMoves fuel b = some ms) (m : Move) (hm : m ∈ ms) :
    SourceOK b m ∧ DestOK b m := by
  unfold PossibleMoves at h
  rcases possibleLoop_generated fuel b _ [] ms h m hm with h2 | ⟨st, hst, he, hc, hg⟩
  · exact absurd h2 (List.not_mem_nil _)
  · obtain ⟨i, rfl⟩ := (List.mem_ofFn _ _).1 hst
    obtain ⟨hsrc, hdest⟩ := Generated_ok b _ m hg
    rw [hwf i] at hsrc
    refine ⟨?_, hdest⟩
    unfold SourceOK
    refine ⟨by rw [hsrc]; exact i.isLt, ?_, ?_⟩
    · have : (⟨m.source, by rw [hsrc]; exact i.isLt⟩ : Fin 64) = i := Fin.ext hsrc
      rw [this]
      exact he
    · have : (⟨m.source, by rw [hsrc]; exact i.isLt⟩ : Fin 64) = i := Fin.ext hsrc
      rw [this]
      exact hc

/-! ## Termination of the ray loop and of the enumeration -/

/-- Eight or more steps along a unit direction leave the board. -/
theorem TryMove_far (b : Board) (s : Nat) (hs : s < 64) (d dest : Delta) (hd : UnitDir d)
    (k : Int) (hk : 8 ≤ k) (hr : dest.rank = k * d.rank) (hf : dest.file = k * d.file) :
    TryMove b s dest = Move.ofType kInvalid := by
  have hR : Rank s = ((s / 8 : Nat) : Int) := rfl
  have hF : File s = ((s % 8 : Nat) : Int) := rfl
  obtain ⟨h1, h2, h3⟩ := hd
  refine TryMove_off b s dest ?_
  rw [hR, hF, hr, hf]
  rcases h1 with h1 | h1 | h1 <;> rcases h2 with h2 | h2 | h2 <;> rw [h1, h2] <;> omega

/-- From a square of the board the ray loop along a unit direction exits within eight
executions of its body. -/
theorem slidingLoop_total (b : Board) (s : Nat) (hs : s < 64) (d : Delta) (hd : UnitDir d)
    (fuel : Nat) (dest : Delta) (res : List Move) (k : Int) (hk : 1 ≤ k)
    (hfuel : 1 ≤ fuel) (hsum : 9 ≤ (fuel : Int) + k)
    (hr : dest.rank = k * d.rank) (hf : dest.file = k * d.file) :
    ∃ out, slidingLoop b s d fuel dest res = some out := by
  induction fuel generalizing dest res k with
  | zero => omega
  | succ n ih =>
    unfold slidingLoop
    simp only
    by_cases hreg : (TryMove b s dest).type = kRegular
    · rw [if_pos hreg]
      have hk8 : k < 8 := by
        by_contra hge
        rw [TryMove_far b s hs d dest hd k (by omega) hr hf] at hreg
        exact absurd hreg (by decide)
      refine ih _ _ (k + 1) (by omega) (by omega) (by push_cast at hsum ⊢; omega) ?_ ?_
      · simp only [Delta.add, hr]
        ring
      · simp only [Delta.add, hf]
        ring
    · rw [if_neg hreg]
      exact ⟨_, rfl⟩

/-- More fuel does not change the result of the ray loop. -/
theorem slidingLoop_mono (b : Board) (s : Nat) (d : Delta) (fuel extra : Nat) (dest : Delta)
    (res out : List Move) (h : slidingLoop b s d fuel dest res = some out) :
    slidingLoop b s d (fuel + extra) dest res = some out := by
  induction fuel generalizing dest res with
  | zero => exact absurd h (by simp [slidingLoop])
  | succ n ih =>
    rw [Nat.add_right_comm]
    unfold slidingLoop at h ⊢
    simp only at h ⊢
    by_cases hreg : (TryMove b s dest).type = kRegular
    · rw [if_pos hreg] at h ⊢
      exact ih _ _ h
    · rw [if_neg hreg] at h ⊢
      exact h

theorem slideAll_total (fuel : Nat) (hfuel : 8 ≤ fuel) (b : Board) (s : Nat) (hs : s < 64)
    (deltas : List Delta) (hd : ∀ d ∈ deltas, UnitDir d) (res : List Move) :
    ∃ out, slideAll fuel b s deltas res = some out := by
  induction deltas generalizing res with
  | nil => exact ⟨res, rfl⟩
  | cons d rest ih =>
    obtain ⟨mid, hmid⟩ := slidingLoop_total b s hs d (hd d (List.mem_cons_self _ _)) fuel d res
      1 (le_refl _) (by omega) (by omega) (by ring) (by ring)
    unfold slideAll SlidingMoves
    rw [hmid]
    exact ih (fun x hx => hd x (List.mem_cons_of_mem _ hx)) mid

theorem slideAll_mono (fuel extra : Nat) (b : Board) (s : Nat) (deltas : List Delta)
    (res out : List Move) (h : slideAll fuel b s deltas res = some out) :
    slideAll (fuel + extra) b s deltas res = some out := by
  induction deltas generalizing res with
  | nil => exact h
  | cons d rest ih =>
    unfold slideAll SlidingMoves at h ⊢
    cases hs : slidingLoop b s d fuel d res with
    | none => simp [hs] at h
    | some mid =>
      rw [slidingLoop_mono b s d fuel extra d res mid hs]
      simp only [hs] at h
      exact ih _ h

theorem kDiagonals_unit : ∀ d ∈ kDiagonals, UnitDir d := by
  unfold UnitDir
  decide

theorem kOrthogonals_unit : ∀ d ∈ kOrthogonals, UnitDir d := by
  unfold UnitDir
  decide

theorem pieceMoves_total (fuel : Nat) (hfuel : 8 ≤ fuel) (b : Board) (res : List Move)
    (state : SquareState) (hs : state.square < 64) :
    ∃ out, pieceMoves fuel b res state = some out := by
  unfold pieceMoves
  cases state.piece <;> simp only
  · exact ⟨_, rfl⟩
  · exact ⟨_, rfl⟩
  · exact slideAll_total fuel hfuel b _ hs _ kDiagonals_unit res
  · exact slideAll_total fuel hfuel b _ hs _ kOrthogonals_unit res
  · obtain ⟨mid, hmid⟩ := slideAll_total fuel hfuel b _ hs _ kDiagonals_unit res
    unfold QueenMoves BishopMoves
    rw [hmid]
    exact slideAll_total fuel hfuel b _ hs _ kOrthogonals_unit mid
  · exact ⟨_, rfl⟩

theorem pieceMoves_mono (fuel extra : Nat) (b : Board) (res out : List Move)
    (state : SquareState) (h : pieceMoves fuel b res state = some out) :
    pieceMoves (fuel + extra) b res state = some out := by
  unfold pieceMoves at h ⊢
  cases hp : state.piece <;> simp only [hp] at h ⊢
  · exact h
  · exact h
  · exact slideAll_mono fuel extra b _ _ res out h
  · exact slideAll_mono fuel extra b _ _ res out h
  · unfold QueenMoves BishopMoves RookMoves at h ⊢
    cases hb : slideAll fuel b state.square kDiagonals res with
    | none => simp [hb] at h
    | some mid =>
      rw [slideAll_mono fuel extra b _ _ res mid hb]
      simp only [hb] at h
      exact slideAll_mono fuel extra b _ _ mid out h
  · exact h

theorem possibleLoop_total (fuel : Nat) (hfuel : 8 ≤ fuel) (b : Board)
    (l : List SquareState) (hl : ∀ st ∈ l, st.square < 64) (res : List Move) :
    ∃ out, possibleLoop fuel b l res = some out := by
  induction l generalizing res with
  | nil => exact ⟨res, rfl⟩
  | cons state rest ih =>
    have hrest : ∀ st ∈ rest, st.square < 64 := fun st hst => hl st (List.mem_cons_of_mem _ hst)
    unfold possibleLoop
    by_cases hskip : state.empty = true ∨ state.color ≠ b.color_
    · rw [if_pos hskip]
      exact ih hrest res
    · rw [if_neg hskip]
      obtain ⟨mid, hmid⟩ := pieceMoves_total fuel hfuel b res state
        (hl state (List.mem_cons_self _ _))
      rw [hmid]
      exact ih hrest mid

theorem possibleLoop_mono (fuel extra : Nat) (b : Board) (l : List SquareState)
    (res out : List Move) (h : possibleLoop fuel b l res = some out) :
    possibleLoop (fuel + extra) b l res = some out := by
  induction l generalizing res with
  | nil => exact h
  | cons state rest ih =>
    unfold possibleLoop at h ⊢
    by_cases hskip : state.empty = true ∨ state.color ≠ b.color_
    · rw [if_pos hskip] at h ⊢
      exact ih _ h
    · rw [if_neg hskip] at h ⊢
      cases hp : pieceMoves fuel b res state with
      | none => simp [hp] at h
      | some mid =>
        rw [pieceMoves_mono fuel extra b res mid state hp]
        simp only [hp] at h
        exact ih _ h

/-- With fuel 8 or more the enumeration of a well-indexed board returns. -/
theorem PossibleMoves_total (fuel : Nat) (hfuel : 8 ≤ fuel) (b : Board) (hwf : WellIndexed b) :
    ∃ ms, PossibleMoves fuel b = some ms := by
  unfold PossibleMoves
  apply possibleLoop_total fuel hfuel
  intro st hst
  obtain ⟨i, rfl⟩ := (List.mem_ofFn _ _).1 hst
  rw [hwf i]
  exact i.isLt

/-- The result of the enumeration does not depend on the fuel once it returns. -/
theorem PossibleMoves_mono (fuel extra : Nat) (b : Board) (ms : List Move)
    (h : PossibleMoves fuel b = some ms) : PossibleMoves (fuel + extra) b = some ms :=
  possibleLoop_mono fuel extra b _ _ ms h

/-! ## Update followed by Undo -/

/-- The board after `Update`, record by record. -/
theorem Update_some (b : Board) (m : Move) (ht : m.type ≠ kInvalid)
    (hs : m.source < 64) (hd : m.dest < 64) (hne : m.source ≠ m.dest)
    (hocc : (b.square_table_ ⟨m.source, hs⟩).empty = false) :
    ∃ b1, Update b m = some b1 ∧ b1.board_ = b.board_ ∧ b1.color_ = Toggle b.color_ ∧
      ∀ i : Fin 64, b1.square_table_ i =
        if i.val = m.dest then
          ⟨(b.square_table_ i).square, false, (b.square_table_ ⟨m.source, hs⟩).color,
            (b.square_table_ ⟨m.source, hs⟩).piece⟩
        else if i.val = m.source then
          ⟨(b.square_table_ i).square, true, (b.square_table_ i).color,
            (b.square_table_ i).piece⟩
        else b.square_table_ i := by
  have hds : m.dest ≠ m.source := Ne.symm hne
  unfold Update
  rw [if_neg ht, dif_pos ⟨hs, hd⟩]
  simp only [hocc, Bool.false_eq_true, if_false]
  refine ⟨_, rfl, rfl, rfl, ?_⟩
  intro i
  by_cases h1 : i.val = m.dest
  · have hi : i = ⟨m.dest, hd⟩ := Fin.ext h1
    subst hi
    simp [setSq, hne, hds]
  · by_cases h2 : i.val = m.source
    · have hi : i = ⟨m.source, hs⟩ := Fin.ext h2
      subst hi
      simp [setSq, hne, hds]
    · have h3 : i ≠ ⟨m.dest, hd⟩ := fun h => h1 (congrArg Fin.val h)
      have h4 : i ≠ ⟨m.source, hs⟩ := fun h => h2 (congrArg Fin.val h)
      simp [setSq, h1, h2, h3, h4]

/-- The board after `Undo`, record by record. -/
theorem Undo_some (b : Board) (m : Move) (ht : m.type ≠ kInvalid)
    (hs : m.source < 64) (hd : m.dest < 64) (hne : m.source ≠ m.dest)
    (hocc : (b.square_table_ ⟨m.dest, hd⟩).empty = false) :
    ∃ b1, Undo b m = some b1 ∧ b1.board_ = b.board_ ∧ b1.color_ = Toggle b.color_ ∧
      ∀ i : Fin 64, b1.square_table_ i =
        if i.val = m.source then
          ⟨(b.square_table_ i).square, false, Toggle b.color_,
            (b.square_table_ ⟨m.dest, hd⟩).piece⟩
        else if i.val = m.dest then
          (if m.type = kAttack then
            ⟨(b.square_table_ i).square, false, b.color_, m.captured⟩
          else
            ⟨(b.square_table_ i).square, true, (b.square_table_ i).color,
              (b.square_table_ i).piece⟩)
        else b.square_table_ i := by
  have hds : m.dest ≠ m.source := Ne.symm hne
  unfold Undo
  rw [if_neg ht, dif_pos ⟨hs, hd⟩]
  simp only [hocc, Bool.false_eq_true, if_false]
  refine ⟨_, rfl, rfl, rfl, ?_⟩
  intro i
  by_cases h1 : i.val = m.source
  · have hi : i = ⟨m.source, hs⟩ := Fin.ext h1
    subst hi
    by_cases ha : m.type = kAttack <;> simp [setSq, hne, hds, ha]
  · by_cases h2 : i.val = m.dest
    · have hi : i = ⟨m.dest, hd⟩ := Fin.ext h2
      subst hi
      by_cases ha : m.type = kAttack <;> simp [setSq, hne, hds, ha]
    · have h3 : i ≠ ⟨m.dest, hd⟩ := fun h => h2 (congrArg Fin.val h)
      have h4 : i ≠ ⟨m.source, hs⟩ := fun h => h1 (congrArg Fin.val h)
      by_cases ha : m.type = kAttack <;> simp [setSq, h1, h2, h3, h4, ha]

/-- Round trip `Update` then `Undo` of a well-placed move: both succeed, the side to move and the
bitboards are as before, and every record is as before except that the destination of
a regular move keeps the colour and piece of the moved piece. -/
theorem roundtrip (b : Board) (m : Move) (hsrc : SourceOK b m) (hdst : DestOK b m) :
    ∃ b1 b2, Update b m = some b1 ∧ Undo b1 m = some b2 ∧ b2.color_ = b.color_ ∧
      b2.board_ = b.board_ ∧
      ∀ (hs : m.source < 64) (i : Fin 64), b2.square_table_ i =
        if m.type = kRegular ∧ i.val = m.dest then
          ⟨(b.square_table_ i).square, true, (b.square_table_ ⟨m.source, hs⟩).color,
            (b.square_table_ ⟨m.source, hs⟩).piece⟩
        else b.square_table_ i := by
  obtain ⟨hs, hocc, hcol⟩ := hsrc
  obtain ⟨hd, hne, hcase⟩ := hdst
  have ht : m.type ≠ kInvalid := by
    rcases hcase with ⟨h, _⟩ | ⟨h, _⟩ <;> rw [h] <;> decide
  obtain ⟨b1, hU, hb1, hc1, ht1⟩ := Update_some b m ht hs hd (Ne.symm hne) hocc
  have hocc1 : (b1.square_table_ ⟨m.dest, hd⟩).empty = false := by
    rw [ht1]
    simp
  obtain ⟨b2, hN, hb2, hc2, ht2⟩ := Undo_some b1 m ht hs hd (Ne.symm hne) hocc1
  refine ⟨b1, b2, hU, hN, ?_, ?_, ?_⟩
  · rw [hc2, hc1, Toggle_Toggle]
  · rw [hb2, hb1]
  · intro _ i
    rw [ht2, hc1, Toggle_Toggle]
    by_cases h1 : i.val = m.source
    · have hi : i = ⟨m.source, hs⟩ := Fin.ext h1
      have h2 : ¬ i.val = m.dest := fun h => hne (h ▸ h1 ▸ rfl)
      rw [if_pos h1, if_neg (fun h => h2 h.2), ht1 ⟨m.dest, hd⟩, ht1 i]
      simp only [if_true, if_neg h2, if_pos h1]
      subst hi
      rw [← hcol, ← hocc]
    · rw [if_neg h1]
      by_cases h2 : i.val = m.dest
      · have hi : i = ⟨m.dest, hd⟩ := Fin.ext h2
        subst hi
        rw [if_pos h2, ht1]
        simp only [if_true]
        rcases hcase with ⟨hr, he⟩ | ⟨ha, he, hc, hp⟩
        · have hna : ¬ m.type = kAttack := by rw [hr]; decide
          rw [if_neg hna, if_pos ⟨hr, trivial⟩]
        · have hnr : ¬ m.type = kRegular := by rw [ha]; decide
          rw [if_pos ha, if_neg (fun h => hnr h.1), hp, ← hc, ← he]
      · rw [if_neg h2, if_neg (fun h => h2 h.2), ht1, if_neg h2, if_neg h1]

/-! ## The enumeration -/

/-- C3: on a board whose i-th record carries square index i the enumeration returns
(fuel 8 is enough), and every move it returns has type regular or attack, never
invalid, a source square that is non-empty and occupied by the side to move, and a
destination in 0..63 different from the source; the destination is empty when the
move is regular, and when it is an attack the destination is occupied by the opposite
colour and the captured piece is the piece on it. -/
theorem PossibleMoves_sound (b : Board) (hwf : WellIndexed b) :
    (∃ ms, PossibleMoves 8 b = some ms) ∧
    ∀ fuel ms m, PossibleMoves fuel b = some ms → m ∈ ms →
      (m.type = kRegular ∨ m.type = kAttack) ∧ m.type ≠ kInvalid ∧
      ∃ (hs : m.source < 64) (hd : m.dest < 64),
        (b.square_table_ ⟨m.source, hs⟩).empty = false ∧
        (b.square_table_ ⟨m.source, hs⟩).color = b.color_ ∧
        m.dest ≠ m.source ∧
        (m.type = kRegular → (b.square_table_ ⟨m.dest, hd⟩).empty = true) ∧
        (m.type = kAttack →
          (b.square_table_ ⟨m.dest, hd⟩).empty = false ∧
          (b.square_table_ ⟨m.dest, hd⟩).color = Toggle b.color_ ∧
          m.captured = (b.square_table_ ⟨m.dest, hd⟩).piece) := by
  refine ⟨PossibleMoves_total 8 (le_refl _) b hwf, ?_⟩
  intro fuel ms m h hm
  obtain ⟨⟨hs, he, hc⟩, ⟨hd, hne, hcase⟩⟩ := PossibleMoves_ok fuel b hwf ms h m hm
  rcases hcase with ⟨hr, hde⟩ | ⟨ha, hde, hdc, hp⟩
  · refine ⟨Or.inl hr, by rw [hr]; decide, hs, hd, he, hc, hne, fun _ => hde, ?_⟩
    intro ha
    rw [hr] at ha
    exact MoveType.noConfusion ha
  · refine ⟨Or.inr ha, by rw [ha]; decide, hs, hd, he, hc, hne, ?_, fun _ => ⟨hde, hdc, hp⟩⟩
    intro hr
    rw [ha] at hr
    exact MoveType.noConfusion hr

/-- C1 (amended): on a board whose i-th record carries square index i, for every move
`m` returned by the enumeration, `Update(m)` and then `Undo(m)` succeed and restore the
side to move and, exactly, the record of every square other than the destination of a
regular move; that destination, empty before, is empty again with its square index
kept, and its colour and piece fields hold the colour and piece of the moved piece. -/
theorem roundtrip_amended (b : Board) (hwf : WellIndexed b) :
    (∃ ms, PossibleMoves 8 b = some ms) ∧
    ∀ fuel ms m, PossibleMoves fuel b = some ms → m ∈ ms →
      ∃ b1 b2, Update b m = some b1 ∧ Undo b1 m = some b2 ∧ b2.color_ = b.color_ ∧
        (∀ i : Fin 64, ¬ (m.type = kRegular ∧ i.val = m.dest) →
          b2.square_table_ i = b.square_table_ i) ∧
        (m.type = kRegular → ∃ (hs : m.source < 64) (hd : m.dest < 64),
          (b.square_table_ ⟨m.dest, hd⟩).empty = true ∧
          b2.square_table_ ⟨m.dest, hd⟩ =
            ⟨(b.square_table_ ⟨m.dest, hd⟩).square, true,
              (b.square_table_ ⟨m.source, hs⟩).color,
              (b.square_table_ ⟨m.source, hs⟩).piece⟩) := by
  refine ⟨PossibleMoves_total 8 (le_refl _) b hwf, ?_⟩
  intro fuel ms m h hm
  obtain ⟨hsrc, hdst⟩ := PossibleMoves_ok fuel b hwf ms h m hm
  obtain ⟨b1, b2, hU, hN, hc, _, ht⟩ := roundtrip b m hsrc hdst
  obtain ⟨hs, _, _⟩ := hsrc
  obtain ⟨hd, _, hcase⟩ := hdst
  refine ⟨b1, b2, hU, hN, hc, ?_, ?_⟩
  · intro i hi
    rw [ht hs i, if_neg hi]
  · intro hr
    refine ⟨hs, hd, ?_, ?_⟩
    · rcases hcase with ⟨_, he⟩ | ⟨ha, _⟩
      · exact he
      · rw [hr] at ha
        exact MoveType.noConfusion ha
    · rw [ht hs ⟨m.dest, hd⟩, if_pos ⟨hr, rfl⟩]

set_option maxRecDepth 100000 in
/-- C1 (counterexample): in the position reached from the start by e2-e3 and a7-a6,
whose records all carry their own index, the enumeration returns the regular bishop
move f1-e2; `Update` and `Undo` of it both succeed, and the record of e2 (square 12),
which held (empty, white, pawn) before, holds (empty, white, bishop) afterwards.  So the
square table does not return to exactly its previous values. -/
theorem roundtrip_counterexample :
    ((Update Board.init ⟨kRegular, 12, 20, kPawn⟩).bind
      (fun b1 => Update b1 ⟨kRegular, 48, 40, kPawn⟩)).isSome = true ∧
    WellIndexed playedBoard ∧
    (PossibleMoves 8 playedBoard).map (fun ms => decide (bishopMove ∈ ms)) = some true ∧
    playedBoard.square_table_ 12 = ⟨12, true, kWhite, kPawn⟩ ∧
    ((Update playedBoard bishopMove).bind (fun b1 => Undo b1 bishopMove)).map
      (fun b2 => b2.square_table_ 12) = some ⟨12, true, kWhite, kBishop⟩ ∧
    ¬ (∀ (b : Board) (fuel : Nat) (ms : List Move) (m : Move),
        PossibleMoves fuel b = some ms → m ∈ ms →
        ∃ b1 b2, Update b m = some b1 ∧ Undo b1 m = some b2 ∧ b2.color_ = b.color_ ∧
          ∀ i : Fin 64, b2.square_table_ i = b.square_table_ i) := by
  have h3 : (PossibleMoves 8 playedBoard).map (fun ms => decide (bishopMove ∈ ms)) =
      some true := by decide
  have h4 : playedBoard.square_table_ 12 = ⟨12, true, kWhite, kPawn⟩ := by decide
  have h5 : ((Update playedBoard bishopMove).bind (fun b1 => Undo b1 bishopMove)).map
      (fun b2 => b2.square_table_ 12) = some ⟨12, true, kWhite, kBishop⟩ := by decide
  refine ⟨by decide, by decide, h3, h4, h5, ?_⟩
  intro hall
  cases hms : PossibleMoves 8 playedBoard with
  | none => simp [hms] at h3
  | some ms =>
    have hmem : bishopMove ∈ ms := by simpa [hms] using h3
    obtain ⟨b1, b2, hU, hN, _, ht⟩ := hall playedBoard 8 ms bishopMove hms hmem
    have h6 := ht 12
    rw [hU] at h5
    change (Undo b1 bishopMove).map (fun b2 => b2.square_table_ 12) = _ at h5
    rw [hN] at h5
    have h7 : b2.square_table_ 12 = ⟨12, true, kWhite, kBishop⟩ := Option.some.inj h5
    rw [h7, h4] at h6
    exact absurd h6 (by decide)

set_option maxRecDepth 100000 in
/-- The enumeration of the start position with fuel 8. -/
theorem initial_moves_eight :
    PossibleMoves 8 Board.init = some ((PossibleMoves 8 Board.init).getD []) ∧
    ((PossibleMoves 8 Board.init).getD []).length = 20 ∧
    (∀ m ∈ (PossibleMoves 8 Board.init).getD [], m.type = kRegular) ∧
    ((PossibleMoves 8 Board.init).getD []).countP (fun m =>
      decide (pieceAt Board.init m.source = some (kWhite, kPawn) ∧
        m.dest = m.source + 8)) = 8 ∧
    ((PossibleMoves 8 Board.init).getD []).countP (fun m =>
      decide (pieceAt Board.init m.source = some (kWhite, kPawn) ∧
        m.dest = m.source + 16)) = 8 ∧
    ((PossibleMoves 8 Board.init).getD []).countP (fun m =>
      decide (pieceAt Board.init m.source = some (kWhite, kKnight))) = 4 := by
  refine ⟨by decide, by decide, by decide, by decide, by decide, by decide⟩

/-- C2: on the board the constructor builds from the standard starting position, white
to move, the enumeration returns exactly 20 moves, all regular: 8 single pawn pushes,
8 double pawn pushes and 4 knight moves. -/
theorem initial_moves (fuel : Nat) (hfuel : 8 ≤ fuel) :
    Board.init.color_ = kWhite ∧
    ∃ ms, PossibleMoves fuel Board.init = some ms ∧ ms.length = 20 ∧
      (∀ m ∈ ms, m.type = kRegular) ∧
      ms.countP (fun m =>
        decide (pieceAt Board.init m.source = some (kWhite, kPawn) ∧
          m.dest = m.source + 8)) = 8 ∧
      ms.countP (fun m =>
        decide (pieceAt Board.init m.source = some (kWhite, kPawn) ∧
          m.dest = m.source + 16)) = 8 ∧
      ms.countP (fun m =>
        decide (pieceAt Board.init m.source = some (kWhite, kKnight))) = 4 := by
  obtain ⟨h0, h1, h2, h3, h4, h5⟩ := initial_moves_eight
  refine ⟨rfl, (PossibleMoves 8 Board.init).getD [], ?_, h1, h2, h3, h4, h5⟩
  have hmono := PossibleMoves_mono 8 (fuel - 8) Board.init _ h0
  rw [Nat.add_sub_cancel' hfuel] at hmono
  exact hmono

/-! ## Instances at concrete positions -/

theorem initial_moves_witness :
    8 ≤ 8 ∧ ∃ ms, PossibleMoves 8 Board.init = some ms ∧ ms.length = 20 :=
  ⟨le_refl 8, by
    obtain ⟨_, ms, h, hl, _⟩ := initial_moves 8 (le_refl 8)
    exact ⟨ms, h, hl⟩⟩

set_option maxRecDepth 100000 in
theorem PossibleMoves_sound_witness :
    WellIndexed Board.init ∧ (∃ ms, PossibleMoves 8 Board.init = some ms) ∧
      ∀ fuel ms m, PossibleMoves fuel Board.init = some ms → m ∈ ms → m.type ≠ kInvalid :=
  ⟨by decide, (PossibleMoves_sound Board.init (by decide)).1,
    fun fuel ms m h hm => ((PossibleMoves_sound Board.init (by decide)).2 fuel ms m h hm).2.1⟩

set_option maxRecDepth 100000 in
theorem roundtrip_amended_witness :
    WellIndexed playedBoard ∧
      (PossibleMoves 8 playedBoard).map (fun ms => decide (bishopMove ∈ ms)) = some true ∧
      ∃ b1 b2, Update playedBoard bishopMove = some b1 ∧ Undo b1 bishopMove = some b2 ∧
        b2.color_ = playedBoard.color_ := by
  have h3 : (PossibleMoves 8 playedBoard).map (fun ms => decide (bishopMove ∈ ms)) =
      some true := by decide
  refine ⟨by decide, h3, ?_⟩
  cases hms : PossibleMoves 8 playedBoard with
  | none => simp [hms] at h3
  | some ms =>
    have hmem : bishopMove ∈ ms := by simpa [hms] using h3
    obtain ⟨b1, b2, hU, hN, hc, _⟩ :=
      (roundtrip_amended playedBoard (by decide)).2 8 ms bishopMove hms hmem
    exact ⟨b1, b2, hU, hN, hc⟩

set_option maxRecDepth 100000 in
theorem TryMove_classify_witness :
    ((0 : Int) ≤ Rank 1 + 2 ∧ Rank 1 + 2 < 8) ∧ ((0 : Int) ≤ File 1 + 1 ∧ File 1 + 1 < 8) ∧
      (Board.init.square_table_ 18).empty = true ∧
      (TryMove Board.init 1 ⟨2, 1⟩).type = kRegular :=
  ⟨by decide, by decide, by decide,
    (TryMove_classify Board.init 1 ⟨2, 1⟩ 18 (by decide) (by decide) (by decide)).1 (by decide)⟩

set_option maxRecDepth 100000 in
theorem Update_effect_witness :
    (Board.init.square_table_ 12).empty = false ∧
      ∃ b1, Update Board.init ⟨kRegular, 12, 20, kPawn⟩ = some b1 ∧
        (b1.square_table_ 12).empty = true ∧ (b1.square_table_ 20).empty = false ∧
        (b1.square_table_ 20).piece = (Board.init.square_table_ 12).piece :=
  ⟨by decide, by
    obtain ⟨b1, h, h1, h2, h3, _⟩ :=
      Update_effect Board.init ⟨kRegular, 12, 20, kPawn⟩ (by decide) (by decide) (by decide)
        (by decide) (by decide)
    exact ⟨b1, h, h1, h2, h3⟩⟩

set_option maxRecDepth 100000 in
theorem Undo_effect_witness :
    (playedBoard.square_table_ 40).empty = false ∧
      ∃ b1, Undo playedBoard ⟨kRegular, 48, 40, kPawn⟩ = some b1 ∧
        b1.color_ = Toggle playedBoard.color_ ∧ (b1.square_table_ 48).empty = false ∧
        (b1.square_table_ 40).empty = true :=
  ⟨by decide, by
    obtain ⟨b1, h, h1, h2, _, _, _, h3, _⟩ :=
      Undo_effect playedBoard ⟨kRegular, 48, 40, kPawn⟩ (by decide) (by decide) (by decide)
        (by decide) (by decide)
    exact ⟨b1, h, h1, h2, h3 (by decide)⟩⟩

/-! ## Frame of Update and Undo -/

/-- Writing a record that keeps the square index of the record it replaces leaves
every square index as it was. -/
theorem setSq_square (t t0 : Fin 64 → SquareState) (i : Fin 64) (v : SquareState)
    (hinv : ∀ j, (t j).square = (t0 j).square) (hv : v.square = (t i).square) (j : Fin 64) :
    (setSq t i v j).square = (t0 j).square := by
  unfold setSq
  by_cases h : j = i
  · rw [if_pos h, hv, h, hinv]
  · rw [if_neg h, hinv]

/-- Whenever `Update` succeeds, the move was not invalid, its squares are on the board,
the source was occupied, the bitboards are untouched, the side to move is toggled and
no record changes its square index. -/
theorem Update_frame (b b1 : Board) (m : Move) (h : Update b m = some b1) :
    m.type ≠ kInvalid ∧
    (∃ (hs : m.source < 64), m.dest < 64 ∧ (b.square_table_ ⟨m.source, hs⟩).empty = false) ∧
    b1.board_ = b.board_ ∧ b1.color_ = Toggle b.color_ ∧
    ∀ i : Fin 64, (b1.square_table_ i).square = (b.square_table_ i).square := by
  unfold Update at h
  by_cases ht : m.type = kInvalid
  · rw [if_pos ht] at h
    exact absurd h (by simp)
  · rw [if_neg ht] at h
    by_cases hb : m.source < 64 ∧ m.dest < 64
    · rw [dif_pos hb] at h
      simp only at h
      by_cases he : (b.square_table_ ⟨m.source, hb.1⟩).empty = true
      · rw [if_pos he] at h
        exact absurd h (by simp)
      · rw [if_neg he] at h
        have hb1 := Option.some.inj h
        subst hb1
        refine ⟨ht, ⟨hb.1, hb.2, by simpa using he⟩, rfl, rfl, ?_⟩
        show ∀ i, (setSq _ _ _ i).square = _
        repeat' first | exact (fun _ => rfl) | rfl | apply setSq_square
    · rw [dif_neg hb] at h
      exact absurd h (by simp)

/-- Whenever `Undo` succeeds, the move was not invalid, its squares are on the board,
the destination was occupied, the bitboards are untouched, the side to move is toggled
and no record changes its square index. -/
theorem Undo_frame (b b1 : Board) (m : Move) (h : Undo b m = some b1) :
    m.type ≠ kInvalid ∧
    (∃ (hd : m.dest < 64), m.source < 64 ∧ (b.square_table_ ⟨m.dest, hd⟩).empty = false) ∧
    b1.board_ = b.board_ ∧ b1.color_ = Toggle b.color_ ∧
    ∀ i : Fin 64, (b1.square_table_ i).square = (b.square_table_ i).square := by
  unfold Undo at h
  by_cases ht : m.type = kInvalid
  · rw [if_pos ht] at h
    exact absurd h (by simp)
  · rw [if_neg ht] at h
    by_cases hb : m.source < 64 ∧ m.dest < 64
    · rw [dif_pos hb] at h
      simp only at h
      by_cases he : (b.square_table_ ⟨m.dest, hb.2⟩).empty = true
      · rw [if_pos he] at h
        exact absurd h (by simp)
      · rw [if_neg he] at h
        have hb1 := Option.some.inj h
        subst hb1
        refine ⟨ht, ⟨hb.2, hb.1, by simpa using he⟩, rfl, rfl, ?_⟩
        show ∀ i, (setSq _ _ _ i).square = _
        by_cases ha : m.type = kAttack
        · simp only [ha, if_true]
          repeat' first | exact (fun _ => rfl) | rfl | apply setSq_square
        · simp only [ha, if_false]
          repeat' first | exact (fun _ => rfl) | rfl | apply setSq_square
    · rw [dif_neg hb] at h
      exact absurd h (by simp)

theorem PositionMask_congr (b b1 : Board) (h : b1.board_ = b.board_) (c : Color) :
    PositionMask b1 c = PositionMask b c := by
  unfold PositionMask GetBitBoard
  rw [h]

/-- C14: `Update` and `Undo` never modify the bitboard set: whenever `Update(m)` (or
`Undo(m)`) completes, `GetBitBoard(c, p)` and `PositionMask(c)` return for every colour
and piece type the value they returned before, and `Friends()` after `Update(m)` is
`Enemies()` before it. -/
theorem bitboards_frame (b b1 : Board) (m : Move) :
    (Update b m = some b1 →
      (∀ c p, GetBitBoard b1 c p = GetBitBoard b c p) ∧
      (∀ c, PositionMask b1 c = PositionMask b c) ∧
      Friends b1 = Enemies b) ∧
    (Undo b m = some b1 →
      (∀ c p, GetBitBoard b1 c p = GetBitBoard b c p) ∧
      (∀ c, PositionMask b1 c = PositionMask b c)) := by
  constructor
  · intro h
    obtain ⟨_, _, hb, hc, _⟩ := Update_frame b b1 m h
    refine ⟨?_, PositionMask_congr b b1 hb, ?_⟩
    · intro c p
      unfold GetBitBoard
      rw [hb]
    · unfold Friends Enemies
      rw [hc]
      exact PositionMask_congr b b1 hb _
  · intro h
    obtain ⟨_, _, hb, _, _⟩ := Undo_frame b b1 m h
    refine ⟨?_, PositionMask_congr b b1 hb⟩
    intro c p
    unfold GetBitBoard
    rw [hb]

/-! ## Bitboard queries -/

theorem PositionMask_testBit (b : Board) (c : Color) (s : Nat) :
    (PositionMask b c).testBit s = true ↔ ∃ p, (GetBitBoard b c p).testBit s = true := by
  unfold PositionMask allPieces
  simp only [List.foldl, Nat.testBit_or, kEmpty, Nat.zero_testBit, Bool.false_or,
    Bool.or_eq_true]
  constructor
  · rintro (((((h | h) | h) | h) | h) | h)
    · exact ⟨kPawn, h⟩
    · exact ⟨kKnight, h⟩
    · exact ⟨kBishop, h⟩
    · exact ⟨kRook, h⟩
    · exact ⟨kQueen, h⟩
    · exact ⟨kKing, h⟩
  · rintro ⟨p, h⟩
    cases p
    · exact Or.inl (Or.inl (Or.inl (Or.inl (Or.inl h))))
    · exact Or.inl (Or.inl (Or.inl (Or.inl (Or.inr h))))
    · exact Or.inl (Or.inl (Or.inl (Or.inr h)))
    · exact Or.inl (Or.inl (Or.inr h))
    · exact Or.inl (Or.inr h)
    · exact Or.inr h

theorem PieceIndex_ne (c : Color) (p q : Piece) :
    PieceIndex c p ≠ PieceIndex (Toggle c) q := by
  cases c <;> cases p <;> cases q <;> decide

/-- C15: for every board, colour `c` and square `s`, bit `s` of `PositionMask(c)` is
set if and only if bit `s` of `GetBitBoard(c, p)` is set for one of the six piece
types; `Friends()` is `PositionMask` of the side to move and `Enemies()` is
`PositionMask` of its `Toggle`; and when the 12 bitboards are pairwise disjoint,
`Friends()` and `Enemies()` have no bit in common. -/
theorem PositionMask_spec (b : Board) (c : Color) (s : Nat) :
    ((PositionMask b c).testBit s = true ↔ ∃ p, (GetBitBoard b c p).testBit s = true) ∧
    Friends b = PositionMask b b.color_ ∧
    Enemies b = PositionMask b (Toggle b.color_) ∧
    ((∀ i j : Fin 12, i ≠ j → ∀ n,
        ¬ ((b.board_ i).testBit n = true ∧ (b.board_ j).testBit n = true)) →
      ¬ ((Friends b).testBit s = true ∧ (Enemies b).testBit s = true) ∧
      Friends b &&& Enemies b = 0) := by
  refine ⟨PositionMask_testBit b c s, rfl, rfl, ?_⟩
  intro hdis
  have hno : ∀ n, ¬ ((Friends b).testBit n = true ∧ (Enemies b).testBit n = true) := by
    rintro n ⟨hf, he⟩
    obtain ⟨p, hp⟩ := (PositionMask_testBit b b.color_ n).1 hf
    obtain ⟨q, hq⟩ := (PositionMask_testBit b (Toggle b.color_) n).1 he
    refine hdis _ _ ?_ n ⟨hp, hq⟩
    intro heq
    exact PieceIndex_ne b.color_ p q (congrArg Fin.val heq)
  refine ⟨hno s, ?_⟩
  apply Nat.eq_of_testBit_eq
  intro n
  rw [Nat.testBit_and, Nat.zero_testBit]
  cases hf : (Friends b).testBit n
  · rfl
  · cases he : (Enemies b).testBit n
    · rfl
    · exact absurd ⟨hf, he⟩ (hno n)

/-! ## The square index of a record -/

/-- The constructor gives every record its own square index. -/
theorem scanPieces_square (board : Fin 12 → BitBoard) (s : Nat) (ps : List Piece) :
    (scanPieces board s ps (SquareState.mkEmpty s)).square = s := by
  induction ps with
  | nil => rfl
  | cons p rest ih =>
    unfold scanPieces
    split_ifs
    · rfl
    · rfl
    · exact ih

/-- C20: the predicate that for every i in 0..63 the i-th record carries square index
i holds for the board the constructor produces (from any bitboard set, the starting
position included) and still holds after every `Update(m)` and every `Undo(m)` that
completes, which needs source and destination in 0..63; under it every move the
enumeration returns has a source below 64 whose record is non-empty and of the side
to move. -/
theorem WellIndexed_invariant (board : Fin 12 → BitBoard) (b b1 : Board) (m : Move) :
    WellIndexed (Board.ofBitBoards board) ∧ WellIndexed Board.init ∧
    (WellIndexed b → Update b m = some b1 → WellIndexed b1) ∧
    (WellIndexed b → Undo b m = some b1 → WellIndexed b1) ∧
    (WellIndexed b → ∀ fuel ms x, PossibleMoves fuel b = some ms → x ∈ ms →
      ∃ hs : x.source < 64, (b.square_table_ ⟨x.source, hs⟩).square = x.source ∧
        (b.square_table_ ⟨x.source, hs⟩).empty = false ∧
        (b.square_table_ ⟨x.source, hs⟩).color = b.color_) := by
  have hcons : ∀ bb : Fin 12 → BitBoard, WellIndexed (Board.ofBitBoards bb) :=
    fun bb i => scanPieces_square bb i.val allPieces
  refine ⟨hcons board, hcons kInitialBoardPosition, ?_, ?_, ?_⟩
  · intro hwf h i
    obtain ⟨_, _, _, _, hsq⟩ := Update_frame b b1 m h
    rw [hsq i]
    exact hwf i
  · intro hwf h i
    obtain ⟨_, _, _, _, hsq⟩ := Undo_frame b b1 m h
    rw [hsq i]
    exact hwf i
  · intro hwf fuel ms x h hx
    obtain ⟨⟨hs, he, hc⟩, _⟩ := PossibleMoves_ok fuel b hwf ms h x hx
    exact ⟨hs, hwf ⟨x.source, hs⟩, he, hc⟩

/-! ## Safety of the moves of the enumeration -/

theorem TryMoveAccess_lt (s : Nat) (delta : Delta) (i : Nat)
    (h : TryMoveAccess s delta = some i) : i < 64 := by
  have h8 : ((kRow : Nat) : Int) = 8 := rfl
  unfold TryMoveAccess at h
  simp only [h8] at h
  by_cases hoff : (Rank s + delta.rank < 0 ∨ Rank s + delta.rank ≥ 8) ∨
      (File s + delta.file < 0 ∨ File s + delta.file ≥ 8)
  · rw [if_pos hoff] at h
    exact absurd h (by simp)
  · rw [if_neg hoff] at h
    have hi := Option.some.inj h
    omega

/-- The index `TryMove` reads the table at is the destination of the move it returns. -/
theorem TryMoveAccess_dest (b : Board) (s : Nat) (delta : Delta)
    (hv : (TryMove b s delta).type ≠ kInvalid) :
    TryMoveAccess s delta = some (TryMove b s delta).dest := by
  have h8 : ((kRow : Nat) : Int) = 8 := rfl
  unfold TryMoveAccess
  simp only [h8]
  by_cases hoff : (Rank s + delta.rank < 0 ∨ Rank s + delta.rank ≥ 8) ∨
      (File s + delta.file < 0 ∨ File s + delta.file ≥ 8)
  · rw [TryMove_off b s delta hoff] at hv
    exact absurd rfl hv
  · rw [if_neg hoff]
    have hlt : ((Rank s + delta.rank) * 8 + (File s + delta.file)).toNat < 64 := by omega
    have hon := TryMove_on b s delta ⟨_, hlt⟩ (by omega) (by omega) (by
      show ((((Rank s + delta.rank) * 8 + (File s + delta.file)).toNat : Nat) : Int) = _
      omega)
    rw [hon] at hv ⊢
    split_ifs at hv ⊢
    · rfl
    · exact absurd rfl hv
    · rfl

/-- C16: on a board whose i-th record carries square index i, for every move `m` the
enumeration returns: no assertion of `Update(m)` fails (the type is not invalid and the
source square is non-empty), no assertion of the `Undo(m)` that follows fails (the
destination square is then non-empty), and the indices `m.source` and `m.dest` used by
`Update` and `Undo` are in 0..63; the index `TryMove` reads the table at, which is the
destination of the move it returns, is in 0..63 for every source and delta. -/
theorem moves_safe (b : Board) (hwf : WellIndexed b) :
    (∃ ms, PossibleMoves 8 b = some ms) ∧
    (∀ fuel ms m, PossibleMoves fuel b = some ms → m ∈ ms →
      m.type ≠ kInvalid ∧
      ∃ (hs : m.source < 64) (hd : m.dest < 64),
        (b.square_table_ ⟨m.source, hs⟩).empty = false ∧
        ∃ b1, Update b m = some b1 ∧ (b1.square_table_ ⟨m.dest, hd⟩).empty = false ∧
          ∃ b2, Undo b1 m = some b2) ∧
    (∀ (s : Nat) (delta : Delta) (i : Nat), TryMoveAccess s delta = some i → i < 64) ∧
    (∀ (s : Nat) (delta : Delta), (TryMove b s delta).type ≠ kInvalid →
      TryMoveAccess s delta = some (TryMove b s delta).dest) := by
  refine ⟨PossibleMoves_total 8 (le_refl _) b hwf, ?_, TryMoveAccess_lt, TryMoveAccess_dest b⟩
  intro fuel ms m h hm
  obtain ⟨hsrc, hdst⟩ := PossibleMoves_ok fuel b hwf ms h m hm
  obtain ⟨b1, b2, hU, hN, _⟩ := roundtrip b m hsrc hdst
  obtain ⟨ht, ⟨hs, hd, he⟩, _⟩ := Update_frame b b1 m hU
  obtain ⟨_, ⟨_, _, he1⟩, _⟩ := Undo_frame b1 b2 m hN
  exact ⟨ht, hs, hd, he, b1, hU, he1, b2, hN⟩

/-- C18: on a board whose i-th record carries square index i, for every move `m` the
enumeration returns, after `Update(m)` and then `Undo(m)` the side to move is as
before, every square has the empty flag (and square index) it had before and, where it
is non-empty, the same colour and piece; a record can differ from its previous value
only at an empty square, namely the destination of a regular move, which keeps the
colour and piece of the moved piece. -/
theorem roundtrip_occupancy (b : Board) (hwf : WellIndexed b) :
    (∃ ms, PossibleMoves 8 b = some ms) ∧
    ∀ fuel ms m, PossibleMoves fuel b = some ms → m ∈ ms →
      ∃ b1 b2, Update b m = some b1 ∧ Undo b1 m = some b2 ∧ b2.color_ = b.color_ ∧
        (∀ i : Fin 64,
          (b2.square_table_ i).empty = (b.square_table_ i).empty ∧
          (b2.square_table_ i).square = (b.square_table_ i).square ∧
          ((b.square_table_ i).empty = false →
            (b2.square_table_ i).color = (b.square_table_ i).color ∧
            (b2.square_table_ i).piece = (b.square_table_ i).piece)) ∧
        (∀ i : Fin 64, b2.square_table_ i ≠ b.square_table_ i →
          (b.square_table_ i).empty = true ∧ m.type = kRegular ∧ i.val = m.dest ∧
          ∃ hs : m.source < 64,
            (b2.square_table_ i).color = (b.square_table_ ⟨m.source, hs⟩).color ∧
            (b2.square_table_ i).piece = (b.square_table_ ⟨m.source, hs⟩).piece) := by
  refine ⟨PossibleMoves_total 8 (le_refl _) b hwf, ?_⟩
  intro fuel ms m h hm
  obtain ⟨hsrc, hdst⟩ := PossibleMoves_ok fuel b hwf ms h m hm
  obtain ⟨b1, b2, hU, hN, hc, _, ht⟩ := roundtrip b m hsrc hdst
  obtain ⟨hs, _, _⟩ := hsrc
  obtain ⟨hd, _, hcase⟩ := hdst
  have hempty : ∀ i : Fin 64, m.type = kRegular ∧ i.val = m.dest →
      (b.square_table_ i).empty = true := by
    rintro i ⟨hr, hi⟩
    have hi2 : i = ⟨m.dest, hd⟩ := Fin.ext hi
    rcases hcase with ⟨_, he⟩ | ⟨ha, _⟩
    · rw [hi2]
      exact he
    · rw [hr] at ha
      exact MoveType.noConfusion ha
  refine ⟨b1, b2, hU, hN, hc, ?_, ?_⟩
  · intro i
    rw [ht hs i]
    by_cases hi : m.type = kRegular ∧ i.val = m.dest
    · rw [if_pos hi]
      refine ⟨(hempty i hi).symm, rfl, ?_⟩
      intro hne
      rw [hempty i hi] at hne
      exact Bool.noConfusion hne
    · rw [if_neg hi]
      exact ⟨rfl, rfl, fun _ => ⟨rfl, rfl⟩⟩
  · intro i hne
    rw [ht hs i] at hne ⊢
    by_cases hi : m.type = kRegular ∧ i.val = m.dest
    · rw [if_pos hi]
      exact ⟨hempty i hi, hi.1, hi.2, hs, rfl, rfl⟩
    · rw [if_neg hi] at hne
      exact absurd rfl hne

/-! ## Termination of the ray loop -/

/-- Along a unit direction from a square of the board the ray loop appends at most
`8 - k` moves when it is entered with the accumulated delta `k * d`. -/
theorem slidingLoop_length (b : Board) (s : Nat) (hs : s < 64) (d : Delta) (hd : UnitDir d)
    (fuel : Nat) (dest : Delta) (res out : List Move) (k : Nat) (hk : 1 ≤ k) (hk8 : k ≤ 8)
    (hr : dest.rank = (k : Int) * d.rank) (hf : dest.file = (k : Int) * d.file)
    (h : slidingLoop b s d fuel dest res = some out) :
    out.length + k ≤ res.length + 8 := by
  induction fuel generalizing dest res k with
  | zero => exact absurd h (by simp [slidingLoop])
  | succ n ih =>
    have hfar : 8 ≤ k → TryMove b s dest = Move.ofType kInvalid := fun h8 =>
      TryMove_far b s hs d dest hd k (by omega) hr hf
    unfold slidingLoop at h
    simp only [AddMove] at h
    by_cases hreg : (TryMove b s dest).type = kRegular
    · have hlt : k < 8 := by
        by_contra hge
        rw [hfar (by omega)] at hreg
        exact absurd hreg (by decide)
      rw [if_pos hreg, if_pos (by rw [hreg]; decide)] at h
      have := ih (dest.add d) _ (k + 1) (by omega) (by omega)
        (by simp only [Delta.add, hr]; push_cast; ring)
        (by simp only [Delta.add, hf]; push_cast; ring) h
      rw [List.length_append, List.length_singleton] at this
      omega
    · rw [if_neg hreg] at h
      have hout := Option.some.inj h
      rw [← hout]
      by_cases hv : (TryMove b s dest).type ≠ kInvalid
      · have hlt : k < 8 := by
          by_contra hge
          rw [hfar (by omega)] at hv
          exact hv rfl
        rw [if_pos hv, List.length_append, List.length_singleton]
        omega
      · rw [if_neg hv]
        omega

/-- From a square of the board the candidate with the zero delta is the source itself. -/
theorem TryMove_zero (b : Board) (s : Nat) (hs : s < 64) :
    TryMove b s ⟨0, 0⟩ =
      if (b.square_table_ ⟨s, hs⟩).empty = true then Move.mk3 kRegular s s
      else if (b.square_table_ ⟨s, hs⟩).color = b.color_ then Move.ofType kInvalid
      else ⟨kAttack, s, s, (b.square_table_ ⟨s, hs⟩).piece⟩ := by
  have hR : Rank s = ((s / 8 : Nat) : Int) := rfl
  have hF : File s = ((s % 8 : Nat) : Int) := rfl
  exact TryMove_on b s ⟨0, 0⟩ ⟨s, hs⟩ (by rw [hR]; simp only []; omega)
    (by rw [hF]; simp only []; omega) (by rw [hR, hF]; simp only []; omega)

/-- With the zero direction on an empty source the ray loop never exits. -/
theorem slidingLoop_zero_empty (b : Board) (s : Nat) (hs : s < 64)
    (he : (b.square_table_ ⟨s, hs⟩).empty = true) (fuel : Nat) (res : List Move) :
    slidingLoop b s ⟨0, 0⟩ fuel ⟨0, 0⟩ res = none := by
  induction fuel generalizing res with
  | zero => rfl
  | succ n ih =>
    unfold slidingLoop
    simp only [TryMove_zero b s hs, he, if_true, Move.mk3]
    exact ih _

/-- C17: from every source square in 0..63 and for every non-zero direction with both
components in {-1, 0, 1}, the ray loop of `SlidingMoves` exits within 8 executions of
its body (8 calls to `TryMove`) and appends at most 7 moves; for the zero direction
it exits if and only if the source square is non-empty. -/
theorem SlidingMoves_terminates (b : Board) (s : Nat) (hs : s < 64) (res : List Move) :
    (∀ d, UnitDir d →
      ∃ out, SlidingMoves 8 b res s d = some out ∧ out.length ≤ res.length + 7) ∧
    ((∃ fuel out, SlidingMoves fuel b res s ⟨0, 0⟩ = some out) ↔
      (b.square_table_ ⟨s, hs⟩).empty = false) := by
  constructor
  · intro d hd
    obtain ⟨out, hout⟩ := slidingLoop_total b s hs d hd 8 d res 1 (le_refl _) (by omega)
      (by omega) (by ring) (by ring)
    refine ⟨out, hout, ?_⟩
    have := slidingLoop_length b s hs d hd 8 d res out 1 (le_refl _) (by omega)
      (by push_cast; ring) (by push_cast; ring) hout
    omega
  · constructor
    · rintro ⟨fuel, out, h⟩
      cases he : (b.square_table_ ⟨s, hs⟩).empty
      · rfl
      · unfold SlidingMoves at h
        rw [slidingLoop_zero_empty b s hs he] at h
        exact absurd h (by simp)
    · intro he
      have hnr : ¬ (TryMove b s ⟨0, 0⟩).type = kRegular := by
        rw [TryMove_zero b s hs, if_neg (by rw [he]; decide)]
        split_ifs <;> decide
      refine ⟨1, ?_⟩
      unfold SlidingMoves slidingLoop
      simp only
      rw [if_neg hnr]
      exact ⟨_, rfl⟩

/-! ## Score after a move -/

/-- The material of a colour as a sum over the 64 squares. -/
theorem materialOf_tableList (v : Piece → Int) (col : Color) (t : Fin 64 → SquareState) :
    materialOf v col (tableList t) =
      ∑ i : Fin 64, (if (t i).empty = false ∧ (t i).color = col then v (t i).piece else 0) := by
  unfold materialOf tableList
  rw [List.map_ofFn, List.sum_ofFn]
  rfl

/-- Two sums over the squares that differ at two squares only. -/
theorem sum_two_changes (F G : Fin 64 → Int) (s d : Fin 64) (hsd : s ≠ d)
    (h : ∀ i, i ≠ s → i ≠ d → G i = F i) :
    ∑ i, G i = ∑ i, F i + (G s - F s) + (G d - F d) := by
  have h1 : ∑ i, (G i - F i) = (G s - F s) + (G d - F d) := by
    apply Fintype.sum_eq_add s d hsd
    intro x hx
    rw [h x hx.1 hx.2, sub_self]
  rw [Finset.sum_sub_distrib] at h1
  linarith

/-- The material after the `Update` of a well-placed move: unchanged, except that an
attack removes the value of the captured piece from the other colour. -/
theorem materialOf_Update (v : Piece → Int) (b b1 : Board) (m : Move)
    (hsrc : SourceOK b m) (hdst : DestOK b m) (hU : Update b m = some b1) (col : Color) :
    materialOf v col (tableList b1.square_table_) =
      materialOf v col (tableList b.square_table_) -
        (if m.type = kAttack ∧ col = Toggle b.color_ then v m.captured else 0) := by
  obtain ⟨hs, he, hc⟩ := hsrc
  obtain ⟨hd, hne, hcase⟩ := hdst
  have ht : m.type ≠ kInvalid := by
    rcases hcase with ⟨h, _⟩ | ⟨h, _⟩ <;> rw [h] <;> decide
  obtain ⟨b2, hU2, _, _, htab⟩ := Update_some b m ht hs hd (Ne.symm hne) he
  rw [hU] at hU2
  have hb : b1 = b2 := Option.some.inj hU2
  subst hb
  have hsd : (⟨m.source, hs⟩ : Fin 64) ≠ ⟨m.dest, hd⟩ := fun h => hne (congrArg Fin.val h).symm
  have key := sum_two_changes
    (fun i : Fin 64 => if (b.square_table_ i).empty = false ∧ (b.square_table_ i).color = col
      then v (b.square_table_ i).piece else 0)
    (fun i : Fin 64 => if (b1.square_table_ i).empty = false ∧
      (b1.square_table_ i).color = col then v (b1.square_table_ i).piece else 0)
    ⟨m.source, hs⟩ ⟨m.dest, hd⟩ hsd (by
      intro i h1 h2
      have h3 : ¬ i.val = m.dest := fun h => h2 (Fin.ext h)
      have h4 : ¬ i.val = m.source := fun h => h1 (Fin.ext h)
      simp only
      rw [htab i, if_neg h3, if_neg h4])
  rw [materialOf_tableList, materialOf_tableList, key]
  simp only
  rw [htab ⟨m.source, hs⟩, htab ⟨m.dest, hd⟩]
  simp only [if_neg (Ne.symm hne), if_true]
  have hTc : ¬ b.color_ = Toggle b.color_ := fun h => Toggle_ne _ h.symm
  rcases hcase with ⟨hr, hde⟩ | ⟨ha, hde, hdc, hp⟩
  · have hna : ¬ m.type = kAttack := by rw [hr]; decide
    simp only [he, hc, hde, hna, false_and, true_and, if_false, Bool.true_eq_false]
    ring
  · simp only [he, hc, hde, hdc, ha, hp, true_and, Bool.true_eq_false, false_and, if_false]
    by_cases hcol : col = Toggle b.color_
    · subst hcol
      simp only [hTc, if_false, if_true]
      ring
    · have hcol2 : ¬ Toggle b.color_ = col := fun h => hcol h.symm
      simp only [hcol, hcol2, if_false]
      ring

/-- The score written with the two materials. -/
theorem Score_eq_material (v : Piece → Int) (b : Board) :
    Score v b = materialOf v b.color_ (tableList b.square_table_) -
      materialOf v (Toggle b.color_) (tableList b.square_table_) := by
  simp only [Score, scoreLoop_eq]
  ring

/-- C19: on a board whose i-th record carries square index i, for every move `m` the
enumeration returns, with exact integer arithmetic and any piece-value table:
`Update(m)` completes, and `Score()` after it is `-Score()` before it when `m` is
regular, and `-Score()` before it minus `kPieceValue[m.captured]` when `m` is an
attack. -/
theorem Score_after_Update (kPieceValue : Piece → Int) (b : Board) (hwf : WellIndexed b) :
    (∃ ms, PossibleMoves 8 b = some ms) ∧
    ∀ fuel ms m, PossibleMoves fuel b = some ms → m ∈ ms →
      ∃ b1, Update b m = some b1 ∧
        (m.type = kRegular → Score kPieceValue b1 = - Score kPieceValue b) ∧
        (m.type = kAttack →
          Score kPieceValue b1 = - Score kPieceValue b - kPieceValue m.captured) := by
  refine ⟨PossibleMoves_total 8 (le_refl _) b hwf, ?_⟩
  intro fuel ms m h hm
  obtain ⟨hsrc, hdst⟩ := PossibleMoves_ok fuel b hwf ms h m hm
  obtain ⟨b1, _, hU, _⟩ := roundtrip b m hsrc hdst
  obtain ⟨_, _, _, hc1, _⟩ := Update_frame b b1 m hU
  have hTc : ¬ b.color_ = Toggle b.color_ := fun h => Toggle_ne _ h.symm
  refine ⟨b1, hU, ?_, ?_⟩
  · intro hr
    have hna : ¬ m.type = kAttack := by rw [hr]; decide
    rw [Score_eq_material, Score_eq_material, hc1, Toggle_Toggle,
      materialOf_Update kPieceValue b b1 m hsrc hdst hU,
      materialOf_Update kPieceValue b b1 m hsrc hdst hU]
    simp only [hna, false_and, if_false]
    ring
  · intro ha
    rw [Score_eq_material, Score_eq_material, hc1, Toggle_Toggle,
      materialOf_Update kPieceValue b b1 m hsrc hdst hU,
      materialOf_Update kPieceValue b b1 m hsrc hdst hU]
    simp only [ha, hTc, true_and, and_false, if_false, if_true]
    ring

/-! ## The mirror between square table and bitboards -/

theorem MirrorsAt_iff_lists (b : Board) (s : Fin 64) :
    MirrorsAt b s ↔ ∀ c ∈ [kWhite, kBlack], ∀ p ∈ allPieces,
      (((b.square_table_ s).empty = false ∧ (b.square_table_ s).color = c ∧
        (b.square_table_ s).piece = p) ↔ (GetBitBoard b c p).testBit s.val = true) := by
  unfold MirrorsAt
  constructor
  · intro h c _ p _
    exact h c p
  · intro h c p
    exact h c (by cases c <;> simp) p (mem_allPieces p)

set_option maxRecDepth 100000 in
/-- The start position mirrors its bitboards. -/
theorem Mirrors_init : Mirrors Board.init := by
  intro s
  rw [MirrorsAt_iff_lists]
  revert s
  decide

/-- Every enumerated move is well placed at its destination, whatever the square
indices in the records are. -/
theorem PossibleMoves_dest (fuel : Nat) (b : Board) (ms : List Move)
    (h : PossibleMoves fuel b = some ms) (m : Move) (hm : m ∈ ms) : DestOK b m := by
  unfold PossibleMoves at h
  rcases possibleLoop_generated fuel b _ [] ms h m hm with h2 | ⟨st, _, _, _, hg⟩
  · exact absurd h2 (List.not_mem_nil _)
  · exact (Generated_ok b _ m hg).2

/-- C13 (amended): on a board whose square table mirrors the 12 bitboards, for every
move `m` the enumeration returns, `Update(m)` leaves the bitboards as they were, so
after it the square table still mirrors them at every square other than the source and
the destination of `m`, but no longer at the source, whose record is empty while the
bitboard of the moved piece keeps its bit; on a board whose records carry their own
index `Update(m)` completes and the mirror is also lost at the destination. -/
theorem mirror_amended (b : Board) (hmir : Mirrors b) (fuel : Nat) (ms : List Move)
    (m : Move) (h : PossibleMoves fuel b = some ms) (hm : m ∈ ms) :
    (WellIndexed b → ∃ b1, Update b m = some b1) ∧
    ∀ b1, Update b m = some b1 →
      (∀ c p, GetBitBoard b1 c p = GetBitBoard b c p) ∧
      (∀ i : Fin 64, i.val ≠ m.source → i.val ≠ m.dest → MirrorsAt b1 i) ∧
      (∀ hs : m.source < 64, ¬ MirrorsAt b1 ⟨m.source, hs⟩) ∧
      (WellIndexed b → ∀ hd : m.dest < 64, ¬ MirrorsAt b1 ⟨m.dest, hd⟩) := by
  have hdst := PossibleMoves_dest fuel b ms h m hm
  constructor
  · intro hwf
    obtain ⟨hsrc, _⟩ := PossibleMoves_ok fuel b hwf ms h m hm
    obtain ⟨b1, _, hU, _⟩ := roundtrip b m hsrc hdst
    exact ⟨b1, hU⟩
  · intro b1 hU
    obtain ⟨ht, ⟨hs, hd, he⟩, hbb, _, _⟩ := Update_frame b b1 m hU
    obtain ⟨_, hne, hcase⟩ := hdst
    obtain ⟨b2, hU2, _, _, htab⟩ := Update_some b m ht hs hd (Ne.symm hne) he
    rw [hU] at hU2
    have hb : b1 = b2 := Option.some.inj hU2
    subst hb
    have hget : ∀ c p, GetBitBoard b1 c p = GetBitBoard b c p := by
      intro c p
      unfold GetBitBoard
      rw [hbb]
    refine ⟨hget, ?_, ?_, ?_⟩
    · intro i h1 h2 c p
      rw [hget, htab i, if_neg h2, if_neg h1]
      exact hmir i c p
    · intro _ hmirror
      have hbit := (hmir ⟨m.source, hs⟩ _ _).1 ⟨he, rfl, rfl⟩
      rw [← hget] at hbit
      have hrec := ((hmirror _ _).2 hbit).1
      rw [htab ⟨m.source, hs⟩, if_neg (Ne.symm hne), if_pos rfl] at hrec
      exact Bool.noConfusion hrec
    · intro hwf _ hmirror
      obtain ⟨⟨_, _, hc⟩, _⟩ := PossibleMoves_ok fuel b hwf ms h m hm
      have hrec : (b1.square_table_ ⟨m.dest, hd⟩).empty = false ∧
          (b1.square_table_ ⟨m.dest, hd⟩).color = (b.square_table_ ⟨m.source, hs⟩).color ∧
          (b1.square_table_ ⟨m.dest, hd⟩).piece = (b.square_table_ ⟨m.source, hs⟩).piece := by
        rw [htab ⟨m.dest, hd⟩, if_pos rfl]
        exact ⟨rfl, rfl, rfl⟩
      have hbit := (hmirror _ _).1 hrec
      rw [hget] at hbit
      obtain ⟨hde, hdc, _⟩ := (hmir ⟨m.dest, hd⟩ _ _).2 hbit
      rcases hcase with ⟨_, he2⟩ | ⟨_, _, hc2, _⟩
      · rw [he2] at hde
        exact Bool.noConfusion hde
      · rw [hdc, hc] at hc2
        exact Toggle_ne _ hc2.symm

set_option maxRecDepth 100000 in
/-- C13 (counterexample): the start position mirrors its bitboards and the enumeration
returns the pawn move e2-e3; after `Update` of it the record of e2 (square 12) is empty
while the bitboard of the white pawns still has bit 12 set, so the square table does
not mirror the bitboards any more. -/
theorem mirror_counterexample :
    Mirrors Board.init ∧
    (PossibleMoves 8 Board.init).map (fun ms => decide (pawnMove ∈ ms)) = some true ∧
    (Update Board.init pawnMove).map (fun b1 =>
      ((b1.square_table_ 12).empty, (GetBitBoard b1 kWhite kPawn).testBit 12)) =
        some (true, true) ∧
    ¬ (∀ (b : Board) (fuel : Nat) (ms : List Move) (m : Move), Mirrors b →
        PossibleMoves fuel b = some ms → m ∈ ms →
        ∃ b1, Update b m = some b1 ∧ Mirrors b1) := by
  have h2 : (PossibleMoves 8 Board.init).map (fun ms => decide (pawnMove ∈ ms)) =
      some true := by decide
  have h3 : (Update Board.init pawnMove).map (fun b1 =>
      ((b1.square_table_ 12).empty, (GetBitBoard b1 kWhite kPawn).testBit 12)) =
        some (true, true) := by decide
  refine ⟨Mirrors_init, h2, h3, ?_⟩
  intro hall
  cases hms : PossibleMoves 8 Board.init with
  | none => simp [hms] at h2
  | some ms =>
    have hmem : pawnMove ∈ ms := by simpa [hms] using h2
    obtain ⟨b1, hU, hmir⟩ := hall Board.init 8 ms pawnMove Mirrors_init hms hmem
    rw [hU] at h3
    have h4 : ((b1.square_table_ 12).empty, (GetBitBoard b1 kWhite kPawn).testBit 12) =
        (true, true) := Option.some.inj h3
    have he : (b1.square_table_ 12).empty = true := congrArg Prod.fst h4
    have hb : (GetBitBoard b1 kWhite kPawn).testBit 12 = true := congrArg Prod.snd h4
    have := ((hmir 12 kWhite kPawn).2 hb).1
    rw [he] at this
    exact Bool.noConfusion this

set_option maxRecDepth 100000 in
theorem mirror_amended_witness :
    Mirrors Board.init ∧ PossibleMoves 8 Board.init = some ((PossibleMoves 8 Board.init).getD []) ∧
      pawnMove ∈ (PossibleMoves 8 Board.init).getD [] ∧
      (∃ b1, Update Board.init pawnMove = some b1) ∧
      ∀ b1, Update Board.init pawnMove = some b1 → ¬ MirrorsAt b1 12 :=
  ⟨Mirrors_init, by decide, by decide,
    (mirror_amended Board.init Mirrors_init 8 _ pawnMove initial_moves_eight.1
      (by decide)).1 (by decide),
    fun b1 hU => ((mirror_amended Board.init Mirrors_init 8 _ pawnMove initial_moves_eight.1
      (by decide)).2 b1 hU).2.2.1 (by decide)⟩

/-! ## Knight moves -/

/-- One step of the loop of `KnightMoves` and `KingMoves`. -/
theorem step_eq (b : Board) (s : Nat) (delta : Delta) (res : List Move) :
    (if (TryMove b s delta).type ≠ kInvalid then AddMove res (TryMove b s delta) else res) =
      res ++ stepSpec b s delta := by
  rw [TryMove_eq_squareAt]
  unfold stepSpec AddMove
  generalize b.color_ = bc
  rcases squareAt b (Rank s + delta.rank) (File s + delta.file) with _ | ⟨d, sq, e, c, p⟩
  · simp [Move.ofType]
  · cases e <;> cases c <;> cases bc <;> simp [Move.ofType, Move.mk3, Toggle]

theorem stepMoves_eq (b : Board) (s : Nat) (deltas : List Delta) (res : List Move) :
    stepMoves b s deltas res = res ++ deltas.flatMap (stepSpec b s) := by
  induction deltas generalizing res with
  | nil => simp [stepMoves]
  | cons delta rest ih =>
    unfold stepMoves
    simp only
    rw [step_eq, ih, List.flatMap_cons, List.append_assoc]

theorem stepSpec_mem (b : Board) (s : Nat) (delta : Delta) (m : Move) :
    m ∈ stepSpec b s delta ↔
      ∃ t st, squareAt b (Rank s + delta.rank) (File s + delta.file) = some (t, st) ∧
        ((st.empty = true ∧ m = Move.mk3 kRegular s t) ∨
          (st.empty = false ∧ st.color = Toggle b.color_ ∧ m = ⟨kAttack, s, t, st.piece⟩)) := by
  unfold stepSpec
  rcases squareAt b (Rank s + delta.rank) (File s + delta.file) with _ | ⟨t, st⟩
  · simp
  · cases he : st.empty
    · by_cases hc : st.color = Toggle b.color_ <;> simp [he, hc, and_assoc]
    · simp [he, and_assoc]

theorem stepSpec_count (b : Board) (s : Nat) (delta : Delta) :
    ((∃ t st, squareAt b (Rank s + delta.rank) (File s + delta.file) = some (t, st) ∧
        (st.empty = true ∨ st.color = Toggle b.color_)) → ∃ m, stepSpec b s delta = [m]) ∧
    (¬ (∃ t st, squareAt b (Rank s + delta.rank) (File s + delta.file) = some (t, st) ∧
        (st.empty = true ∨ st.color = Toggle b.color_)) → stepSpec b s delta = []) := by
  unfold stepSpec
  rcases squareAt b (Rank s + delta.rank) (File s + delta.file) with _ | ⟨t, st⟩
  · simp
  · cases he : st.empty
    · by_cases hc : st.color = Toggle b.color_ <;> simp [he, hc]
    · simp [he]

/-- On a board that is empty apart from the source, a step that stays on the board is a
regular move. -/
theorem stepSpec_on (b : Board) (s : Nat) (delta : Delta)
    (hothers : ∀ i : Fin 64, i.val ≠ s → (b.square_table_ i).empty = true)
    (hnz : delta.rank ≠ 0 ∨ delta.file ≠ 0)
    (hr : 0 ≤ Rank s + delta.rank ∧ Rank s + delta.rank < 8)
    (hf : 0 ≤ File s + delta.file ∧ File s + delta.file < 8) :
    stepSpec b s delta =
      [Move.mk3 kRegular s ((Rank s + delta.rank) * 8 + (File s + delta.file)).toNat] := by
  have hne : ((Rank s + delta.rank) * 8 + (File s + delta.file)).toNat ≠ s := by
    have hR : Rank s = ((s / 8 : Nat) : Int) := rfl
    have hF : File s = ((s % 8 : Nat) : Int) := rfl
    simp only [hR, hF] at hr hf ⊢
    omega
  unfold stepSpec squareAt
  rw [dif_pos ⟨hr, hf⟩]
  simp only
  rw [if_pos (hothers _ hne)]

theorem stepSpec_off (b : Board) (s : Nat) (delta : Delta)
    (hoff : ¬ ((0 ≤ Rank s + delta.rank ∧ Rank s + delta.rank < 8) ∧
      (0 ≤ File s + delta.file ∧ File s + delta.file < 8))) :
    stepSpec b s delta = [] := by
  unfold stepSpec squareAt
  rw [dif_neg hoff]

/-- C12: `KnightMoves` appends, for each of the eight L-shaped offsets in turn, exactly
one move when the target square is on the board and not occupied by the side to move
(regular onto an empty square, attack with the target's piece onto the opposite colour)
and nothing otherwise; on a board that is empty apart from the knight, a knight on
corner square 0 gets exactly 2 moves and a knight at least two squares from every edge
gets exactly 8. -/
theorem KnightMoves_spec (b : Board) (res : List Move) (s : Nat) :
    KnightMoves b res s = res ++ kKnightDeltas.flatMap (stepSpec b s) ∧
    kKnightDeltas.Nodup ∧
    (∀ d : Delta, d ∈ kKnightDeltas ↔
      (d.rank.natAbs = 1 ∧ d.file.natAbs = 2) ∨ (d.rank.natAbs = 2 ∧ d.file.natAbs = 1)) ∧
    (∀ d : Delta,
      ((∃ t st, squareAt b (Rank s + d.rank) (File s + d.file) = some (t, st) ∧
          (st.empty = true ∨ st.color = Toggle b.color_)) → ∃ m, stepSpec b s d = [m]) ∧
      (¬ (∃ t st, squareAt b (Rank s + d.rank) (File s + d.file) = some (t, st) ∧
          (st.empty = true ∨ st.color = Toggle b.color_)) → stepSpec b s d = [])) ∧
    (∀ (d : Delta) (m : Move), m ∈ stepSpec b s d ↔
      ∃ t st, squareAt b (Rank s + d.rank) (File s + d.file) = some (t, st) ∧
        ((st.empty = true ∧ m = Move.mk3 kRegular s t) ∨
          (st.empty = false ∧ st.color = Toggle b.color_ ∧
            m = ⟨kAttack, s, t, st.piece⟩))) ∧
    ((∀ i : Fin 64, i.val ≠ 0 → (b.square_table_ i).empty = true) →
      (KnightMoves b [] 0).length = 2) ∧
    (2 ≤ Rank s → Rank s ≤ 5 → 2 ≤ File s → File s ≤ 5 →
      (∀ i : Fin 64, i.val ≠ s → (b.square_table_ i).empty = true) →
      (KnightMoves b [] s).length = 8) := by
  have heq : ∀ r x, KnightMoves b r x = r ++ kKnightDeltas.flatMap (stepSpec b x) :=
    fun r x => stepMoves_eq b x kKnightDeltas r
  refine ⟨heq res s, by decide, ?_, stepSpec_count b s, stepSpec_mem b s, ?_, ?_⟩
  · rintro ⟨dr, df⟩
    simp only [kKnightDeltas, List.mem_cons, List.mem_singleton, Delta.mk.injEq,
      List.not_mem_nil, or_false]
    omega
  · intro hothers
    rw [heq]
    simp only [kKnightDeltas, List.flatMap_cons, List.flatMap_nil, List.nil_append]
    rw [stepSpec_on b 0 ⟨2, 1⟩ hothers (by decide) (by decide) (by decide),
      stepSpec_off b 0 ⟨2, -1⟩ (by decide), stepSpec_off b 0 ⟨-2, 1⟩ (by decide),
      stepSpec_off b 0 ⟨-2, -1⟩ (by decide),
      stepSpec_on b 0 ⟨1, 2⟩ hothers (by decide) (by decide) (by decide),
      stepSpec_off b 0 ⟨1, -2⟩ (by decide), stepSpec_off b 0 ⟨-1, 2⟩ (by decide),
      stepSpec_off b 0 ⟨-1, -2⟩ (by decide)]
    rfl
  · intro h1 h2 h3 h4 hothers
    rw [heq]
    simp only [kKnightDeltas, List.flatMap_cons, List.flatMap_nil, List.nil_append]
    rw [stepSpec_on b s ⟨2, 1⟩ hothers (by decide) (by simp only []; omega)
        (by simp only []; omega),
      stepSpec_on b s ⟨2, -1⟩ hothers (by decide) (by simp only []; omega)
        (by simp only []; omega),
      stepSpec_on b s ⟨-2, 1⟩ hothers (by decide) (by simp only []; omega)
        (by simp only []; omega),
      stepSpec_on b s ⟨-2, -1⟩ hothers (by decide) (by simp only []; omega)
        (by simp only []; omega),
      stepSpec_on b s ⟨1, 2⟩ hothers (by decide) (by simp only []; omega)
        (by simp only []; omega),
      stepSpec_on b s ⟨1, -2⟩ hothers (by decide) (by simp only []; omega)
        (by simp only []; omega),
      stepSpec_on b s ⟨-1, 2⟩ hothers (by decide) (by simp only []; omega)
        (by simp only []; omega),
      stepSpec_on b s ⟨-1, -2⟩ hothers (by decide) (by simp only []; omega)
        (by simp only []; omega)]
    rfl

/-! ## Sliding moves -/

/-- The candidate is regular exactly when the target is on the board and empty. -/
theorem TryMove_regular_iff (b : Board) (s : Nat) (delta : Delta) :
    (TryMove b s delta).type = kRegular ↔
      ∃ t st, squareAt b (Rank s + delta.rank) (File s + delta.file) = some (t, st) ∧
        st.empty = true := by
  rw [TryMove_eq_squareAt]
  rcases squareAt b (Rank s + delta.rank) (File s + delta.file) with _ | ⟨t, st⟩
  · simp [Move.ofType]
  · cases he : st.empty
    · by_cases hc : st.color = b.color_ <;> simp [he, hc, Move.ofType]
    · constructor
      · intro _
        exact ⟨t, st, rfl, he⟩
      · intro _
        simp only [he, if_true, Move.mk3]

theorem squareAt_index (b : Board) (r f : Int) (t : Nat) (st : SquareState)
    (h : squareAt b r f = some (t, st)) : t = (r * 8 + f).toNat := by
  unfold squareAt at h
  by_cases hon : (0 ≤ r ∧ r < 8) ∧ (0 ≤ f ∧ f < 8)
  · rw [dif_pos hon] at h
    exact (congrArg Prod.fst (Option.some.inj h)).symm
  · rw [dif_neg hon] at h
    exact absurd h (by simp)

/-- A step onto an empty square of the board yields the regular move. -/
theorem stepSpec_regular (b : Board) (s : Nat) (delta : Delta) (t : Nat) (st : SquareState)
    (h : squareAt b (Rank s + delta.rank) (File s + delta.file) = some (t, st))
    (he : st.empty = true) : stepSpec b s delta = [Move.mk3 kRegular s t] := by
  unfold stepSpec
  rw [h]
  simp only [he, if_true]

/-- A step that is not onto an empty square of the board yields the capture, if any. -/
theorem stepSpec_blocked (b : Board) (s : Nat) (delta : Delta)
    (h : ¬ ∃ t st, squareAt b (Rank s + delta.rank) (File s + delta.file) = some (t, st) ∧
      st.empty = true) :
    stepSpec b s delta =
      pawnAttackSpec b s (Rank s + delta.rank) (File s + delta.file) := by
  unfold stepSpec pawnAttackSpec
  rcases hsq : squareAt b (Rank s + delta.rank) (File s + delta.file) with _ | ⟨t, st⟩
  · rfl
  · have he : st.empty = false := by
      cases he : st.empty
      · rfl
      · exact absurd ⟨t, st, hsq, he⟩ h
    simp only [he, Bool.false_eq_true, if_false, true_and]

/-- The ray loop entered with the accumulated delta `k * d`: there is a blocking
distance `n`, the squares `k .. n-1` steps away are on the board and empty, the square
`n` steps away is off the board or occupied, and the loop appends the regular moves to
the former followed by the capture on the latter, if any. -/
theorem slidingLoop_spec (b : Board) (s : Nat) (hs : s < 64) (d : Delta) (hd : UnitDir d)
    (fuel : Nat) (dest : Delta) (res : List Move) (k : Nat) (hk : 1 ≤ k) (hk8 : k ≤ 8)
    (hfuel : 1 ≤ fuel) (hsum : 9 ≤ fuel + k)
    (hr : dest.rank = (k : Int) * d.rank) (hf : dest.file = (k : Int) * d.file) :
    ∃ n : Nat, k ≤ n ∧ n ≤ 8 ∧
      (∀ j, k ≤ j → j < n →
        ∃ st, raySquare b s d j = some (rayIndex s d j, st) ∧ st.empty = true) ∧
      (raySquare b s d n = none ∨
        ∃ t st, raySquare b s d n = some (t, st) ∧ st.empty = false) ∧
      slidingLoop b s d fuel dest res =
        some (res ++ (List.range' k (n - k)).map
            (fun j => Move.mk3 kRegular s (rayIndex s d j)) ++
          pawnAttackSpec b s (Rank s + (n : Int) * d.rank) (File s + (n : Int) * d.file)) := by
  induction fuel generalizing dest res k with
  | zero => omega
  | succ f ih =>
    unfold slidingLoop
    simp only
    rw [step_eq]
    by_cases hreg : (TryMove b s dest).type = kRegular
    · rw [if_pos hreg]
      have hlt : k < 8 := by
        by_contra hge
        rw [TryMove_far b s hs d dest hd k (by omega) hr hf] at hreg
        exact absurd hreg (by decide)
      obtain ⟨t, st, hsq, he⟩ := (TryMove_regular_iff b s dest).1 hreg
      have ht : t = rayIndex s d k := by
        rw [squareAt_index b _ _ t st hsq, hr, hf]
        rfl
      rw [stepSpec_regular b s dest t st hsq he]
      obtain ⟨n, hn1, hn8, hfree, hblock, hloop⟩ := ih (dest.add d) (res ++ [Move.mk3 kRegular s t])
        (k + 1) (by omega) (by omega) (by omega) (by omega)
        (by simp only [Delta.add, hr]; push_cast; ring)
        (by simp only [Delta.add, hf]; push_cast; ring)
      refine ⟨n, by omega, hn8, ?_, hblock, ?_⟩
      · intro j hj1 hj2
        by_cases hjk : j = k
        · subst hjk
          refine ⟨st, ?_, he⟩
          unfold raySquare
          rw [← hr, ← hf, hsq, ht]
        · exact hfree j (by omega) hj2
      · rw [hloop]
        have hsplit : n - k = (n - (k + 1)) + 1 := by omega
        rw [hsplit, List.range'_succ, List.map_cons, ht]
        simp only [List.append_assoc, List.singleton_append]
    · rw [if_neg hreg]
      have hnot := fun h => hreg ((TryMove_regular_iff b s dest).2 h)
      rw [stepSpec_blocked b s dest hnot]
      refine ⟨k, le_refl _, hk8, ?_, ?_, ?_⟩
      · intro j hj1 hj2
        omega
      · unfold raySquare
        rw [← hr, ← hf]
        rcases hsq : squareAt b (Rank s + dest.rank) (File s + dest.file) with _ | ⟨t, st⟩
        · exact Or.inl rfl
        · refine Or.inr ⟨t, st, rfl, ?_⟩
          cases he : st.empty
          · rfl
          · exact absurd ⟨t, st, hsq, he⟩ hnot
      · rw [Nat.sub_self, List.range'_zero, List.map_nil, List.append_nil, hr, hf]

/-- C11: for every board, source square `s` in 0..63 and each of the eight unit
directions `d` there is a least distance `n >= 1` (at most 8) at which the square
`s + n*d` is off the board or non-empty, all squares nearer on the ray being on the
board and empty; `SlidingMoves(s, d)` appends exactly the regular moves to
`s + k*d` for `k = 1 .. n-1` in increasing `k`, followed by one attack on `s + n*d`
(capturing the piece there) if that square is on the board and holds the opposite
colour, and nothing else.  With an enemy piece two squares away along a clear ray
exactly two moves are appended, a regular one and an attack. -/
theorem SlidingMoves_spec (b : Board) (s : Nat) (hs : s < 64) (d : Delta) (hd : UnitDir d)
    (res : List Move) :
    (∃ n : Nat, 1 ≤ n ∧ n ≤ 8 ∧
      (∀ k, 1 ≤ k → k < n →
        ∃ st, raySquare b s d k = some (rayIndex s d k, st) ∧ st.empty = true) ∧
      (raySquare b s d n = none ∨
        ∃ t st, raySquare b s d n = some (t, st) ∧ st.empty = false) ∧
      ∀ fuel, 8 ≤ fuel → SlidingMoves fuel b res s d = some (res ++ raySpec b s d n)) ∧
    (∀ t1 st1 t2 st2, raySquare b s d 1 = some (t1, st1) → st1.empty = true →
      raySquare b s d 2 = some (t2, st2) → st2.empty = false →
      st2.color = Toggle b.color_ →
      SlidingMoves 8 b res s d =
        some (res ++ [Move.mk3 kRegular s t1, ⟨kAttack, s, t2, st2.piece⟩])) := by
  obtain ⟨n, hn1, hn8, hfree, hblock, hloop⟩ := slidingLoop_spec b s hs d hd 8 d res 1
    (le_refl _) (by omega) (by omega) (by omega) (by push_cast; ring) (by push_cast; ring)
  have hall : ∀ fuel, 8 ≤ fuel → SlidingMoves fuel b res s d = some (res ++ raySpec b s d n) := by
    intro fuel hfuel
    have hmono := slidingLoop_mono b s d 8 (fuel - 8) d res _ hloop
    rw [Nat.add_sub_cancel' hfuel] at hmono
    unfold SlidingMoves raySpec
    rw [hmono, List.append_assoc]
  refine ⟨⟨n, hn1, hn8, hfree, hblock, hall⟩, ?_⟩
  intro t1 st1 t2 st2 h1 he1 h2 he2 hc2
  have hn2 : n = 2 := by
    by_contra hne
    rcases Nat.lt_or_gt_of_ne hne with hlt | hgt
    · have hn : n = 1 := by omega
      subst hn
      rcases hblock with hb | ⟨t, st, hb, he⟩
      · rw [h1] at hb
        exact absurd hb (by simp)
      · rw [h1] at hb
        have := congrArg Prod.snd (Option.some.inj hb)
        simp only at this
        rw [this, he] at he1
        exact Bool.noConfusion he1
    · obtain ⟨st, hsq, he⟩ := hfree 2 (by omega) hgt
      rw [h2] at hsq
      have := congrArg Prod.snd (Option.some.inj hsq)
      simp only at this
      rw [this, he] at he2
      exact Bool.noConfusion he2
  subst hn2
  rw [hall 8 (le_refl _)]
  have ht1 : rayIndex s d 1 = t1 := (squareAt_index b _ _ t1 st1 h1).symm
  have hatt : pawnAttackSpec b s (Rank s + ((2 : Nat) : Int) * d.rank)
      (File s + ((2 : Nat) : Int) * d.file) = [⟨kAttack, s, t2, st2.piece⟩] := by
    unfold pawnAttackSpec
    unfold raySquare at h2
    rw [h2]
    simp only [he2, hc2, and_self, if_true]
  unfold raySpec
  rw [hatt]
  simp only [List.range'_succ, List.range'_zero, List.map_cons, List.map_nil, ht1,
    Nat.add_one_sub_one, Nat.reduceAdd, Nat.reduceSub, List.singleton_append]

set_option maxRecDepth 100000 in
theorem SlidingMoves_spec_witness :
    (0 : Nat) < 64 ∧ UnitDir ⟨1, 0⟩ ∧
      raySquare rayBoard 0 ⟨1, 0⟩ 1 = some (8, ⟨8, true, kWhite, kPawn⟩) ∧
      raySquare rayBoard 0 ⟨1, 0⟩ 2 = some (16, ⟨16, false, kBlack, kPawn⟩) ∧
      SlidingMoves 8 rayBoard [] 0 ⟨1, 0⟩ =
        some [Move.mk3 kRegular 0 8, ⟨kAttack, 0, 16, kPawn⟩] :=
  ⟨by decide, by unfold UnitDir; decide, by decide, by decide,
    (SlidingMoves_spec rayBoard 0 (by decide) ⟨1, 0⟩ (by unfold UnitDir; decide) []).2
      8 ⟨8, true, kWhite, kPawn⟩ 16 ⟨16, false, kBlack, kPawn⟩ (by decide) (by decide)
      (by decide) (by decide) (by decide)⟩

set_option maxRecDepth 100000 in
theorem bitboards_frame_witness :
    ∃ b1, Update Board.init pawnMove = some b1 ∧ Friends b1 = Enemies Board.init := by
  obtain ⟨b1, hU⟩ : ∃ b1, Update Board.init pawnMove = some b1 :=
    Option.isSome_iff_exists.1 (by decide)
  exact ⟨b1, hU, ((bitboards_frame Board.init b1 pawnMove).1 hU).2.2⟩

set_option maxRecDepth 100000 in
theorem moves_safe_witness :
    WellIndexed Board.init ∧
      ∀ fuel ms m, PossibleMoves fuel Board.init = some ms → m ∈ ms →
        ∃ b1 b2, Update Board.init m = some b1 ∧ Undo b1 m = some b2 :=
  ⟨by decide, fun fuel ms m h hm => by
    obtain ⟨_, _, _, _, b1, hU, _, b2, hN⟩ :=
      (moves_safe Board.init (by decide)).2.1 fuel ms m h hm
    exact ⟨b1, b2, hU, hN⟩⟩

set_option maxRecDepth 100000 in
theorem SlidingMoves_terminates_witness :
    (0 : Nat) < 64 ∧ UnitDir ⟨1, 0⟩ ∧
      ∃ out, SlidingMoves 8 rayBoard [] 0 ⟨1, 0⟩ = some out ∧ out.length ≤ 7 :=
  ⟨by decide, by unfold UnitDir; decide, by
    obtain ⟨out, h, hl⟩ :=
      (SlidingMoves_terminates rayBoard 0 (by decide) []).1 ⟨1, 0⟩ (by unfold UnitDir; decide)
    exact ⟨out, h, by simpa using hl⟩⟩

set_option maxRecDepth 100000 in
theorem roundtrip_occupancy_witness :
    WellIndexed playedBoard ∧
      ∀ fuel ms m, PossibleMoves fuel playedBoard = some ms → m ∈ ms →
        ∃ b1 b2, Update playedBoard m = some b1 ∧ Undo b1 m = some b2 ∧
          b2.color_ = playedBoard.color_ :=
  ⟨by decide, fun fuel ms m h hm => by
    obtain ⟨b1, b2, hU, hN, hc, _⟩ :=
      (roundtrip_occupancy playedBoard (by decide)).2 fuel ms m h hm
    exact ⟨b1, b2, hU, hN, hc⟩⟩

set_option maxRecDepth 100000 in
theorem Score_after_Update_witness :
    WellIndexed Board.init ∧
      ∀ (v : Piece → Int) fuel ms m, PossibleMoves fuel Board.init = some ms → m ∈ ms →
        m.type = kRegular → ∃ b1, Update Board.init m = some b1 ∧
          Score v b1 = - Score v Board.init :=
  ⟨by decide, fun v fuel ms m h hm hr => by
    obtain ⟨b1, hU, h1, _⟩ := (Score_after_Update v Board.init (by decide)).2 fuel ms m h hm
    exact ⟨b1, hU, h1 hr⟩⟩

end chessy
